import Mathlib

/-!
# Kaidan file sharing controller

A shallow embedding of `src/FileSharingController.cpp`: the file name sanitizer, the
assignment step and the completion handler of `sendMessage`, the transfer tasks of `sendFile`
and `downloadFile`, the naming step of `downloadFile` and `deleteFile`, followed by the
properties proved about them.

Conventions of the embedding.

* A `QString` is a list of characters.  The sanitizer looks at one `QChar` at a time and only
  asks whether it is one of a few ASCII characters or a control character, so a character
  outside the basic plane (two surrogate `QChar`s in Qt, neither of them problematic) behaves
  like the single non-problematic character it is modelled by.
* `qint64` identifiers are integers; the random generator is the sequence of values that
  successive calls of `generateFileId` return, threaded through the code by a call counter.
* The two builds selected by `Q_OS_UNIX` are the two values of `Platform`.
* A transfer task of the provider is what it shows to the controller: a reading for each
  `progressChanged` it emits, then the one result it ends with.
* Calls on the message store, the progress cache, the file system and the protocol client are
  recorded as a list of effects in the order the code issues them.  The closure handed to `updateMessage` is
  recorded as a value of `Transform`, and `Transform.apply` is what the closure does.
-/

namespace Kaidan

/-! ## Strings, platform -/

abbrev QString := List Char

abbrev QByteArray := List Nat

/-- The build: `Q_OS_UNIX` defined or not. -/
inductive Platform where
  | unix
  | other
  deriving DecidableEq, Repr

/-- The character returned by `QDir::separator()`. -/
def separator : Platform → Char
  | .unix => '/'
  | .other => Char.ofNat 92

/-! ## sanitizeFilename -/

/-- The array `bad_chars` of `sanitizeFilename`, for each build. -/
def bad_chars : Platform → List Char
  | .unix =>
    ['.', '/', Char.ofNat 92,
     '<', '>', '|', ':', '(', ')', '&', ';', '#', '?', '*']
  | .other =>
    ['.', '<', '>', ':', Char.ofNat 34, '/', Char.ofNat 92, '|', '?', '*',
     ',', ';', '=',
     '(', ')', '&', '#']

/-- The list `bad_names` of `sanitizeFilename`, for each build. -/
def bad_names : Platform → List QString
  | .unix => []
  | .other =>
    ["CON".toList, "PRN".toList, "AUX".toList, "NUL".toList,
     "COM1".toList, "COM2".toList, "COM3".toList, "COM4".toList,
     "COM5".toList, "COM6".toList, "COM7".toList, "COM8".toList, "COM9".toList,
     "LPT1".toList, "LPT2".toList, "LPT3".toList, "LPT4".toList, "LPT5".toList,
     "LPT6".toList, "LPT7".toList, "LPT8".toList, "LPT9".toList]

/-- The test `c.category() == QChar::Other_Control`: the Unicode category Cc is
U+0000..U+001F and U+007F..U+009F. -/
def isOtherControl (c : Char) : Bool :=
  decide (c.toNat < 32) || (decide (127 ≤ c.toNat) && decide (c.toNat < 160))

/-- The lambda `isBadChar`. -/
def isBadChar (p : Platform) (c : Char) : Bool :=
  decide (c ∈ bad_chars p) || isOtherControl c

/-- The lambda `isBadName`. -/
def isBadName (p : Platform) (name : QString) : Bool :=
  decide (name ∈ bad_names p)

/-- The tokenizing loop of `sanitizeFilename`: `parts` is `filenameParts`, `substr` the run
being collected.  A bad character pushes the current run (empty or not) and clears it. -/
def tokenize (p : Platform) : List Char → List QString → QString → List QString × QString
  | [], parts, substr => (parts, substr)
  | c :: cs, parts, substr =>
    if isBadChar p c then tokenize p cs (parts ++ [substr]) []
    else tokenize p cs parts (substr ++ [c])

/-- The final `if (!substr.isEmpty()) filenameParts.push_back(substr)` on the state the
loop ends in. -/
def finishParts (r : List QString × QString) : List QString :=
  if r.2.isEmpty then r.1 else r.1 ++ [r.2]

/-- The value of `filenameParts` after the loop and the final `if (!substr.isEmpty())`. -/
def filenameParts (p : Platform) (fileName : QString) : List QString :=
  finishParts (tokenize p fileName [] [])

/-- The element `relevantPart` points at, if it is not the end iterator. -/
def relevantPart (p : Platform) (fileName : QString) : Option QString :=
  (filenameParts p fileName).find? (fun part => !part.isEmpty)

/-- The function `sanitizeFilename`. -/
def sanitizeFilename (p : Platform) (fileName : QString) : Option QString :=
  match relevantPart p fileName with
  | none => none
  | some filename => if isBadName p filename then none else some filename


/-! ## Provider types

The types of the QXmpp library that the controller reads, with the accessors it uses. -/

/-- The class `QXmppHash`: `algorithm()` and `hash()`. -/
structure QXmppHash where
  algorithm : Nat
  hash : QByteArray
  deriving DecidableEq, Repr

/-- The class `QXmppHttpFileSource`: `url()`. -/
structure QXmppHttpFileSource where
  url : QString
  deriving DecidableEq, Repr

/-- The class `QXmppEncryptedFileSource`. -/
structure QXmppEncryptedFileSource where
  cipher : Nat
  key : QByteArray
  iv : QByteArray
  hashes : List QXmppHash
  httpSources : List QXmppHttpFileSource
  deriving DecidableEq, Repr

/-- The class `QMimeType`, of which the controller reads `preferredSuffix()`. -/
structure QMimeType where
  preferredSuffix : QString
  deriving DecidableEq, Repr

/-- The class `QXmppFileMetadata`: `filename()` and `mediaType()` are `std::optional`. -/
structure QXmppFileMetadata where
  filename : Option QString
  mediaType : Option QMimeType
  hashes : List QXmppHash
  deriving DecidableEq, Repr

/-- The class `QXmppFileShare`. -/
structure QXmppFileShare where
  metadata : QXmppFileMetadata
  httpSources : List QXmppHttpFileSource
  encryptedSources : List QXmppEncryptedFileSource
  deriving DecidableEq, Repr

/-- An element of `QXmppBitsOfBinaryDataList`: `data()`. -/
structure QXmppBitsOfBinaryData where
  data : QByteArray
  deriving DecidableEq, Repr

/-- The struct `QXmppFileUpload::FileResult`. -/
structure FileResult where
  fileShare : QXmppFileShare
  dataBlobs : List QXmppBitsOfBinaryData
  deriving DecidableEq, Repr

/-- The struct `QXmppError`, of which the controller reads `description`. -/
structure QXmppError where
  description : QString
  deriving DecidableEq, Repr

/-- The variant `QXmppFileUpload::Result`, whose alternatives are a file result, a
cancellation and an error.  The handler tests `holds_alternative<FileResult>` and
`holds_alternative<QXmppError>` separately. -/
inductive UploadOutcome where
  | fileResult (r : FileResult)
  | cancelled
  | error (e : QXmppError)
  deriving DecidableEq, Repr

/-- The tuple `UploadResult`: the file id and the outcome of its upload. -/
abbrev UploadResult := Int × UploadOutcome

/-! ## Engine data model -/

/-- Modelled from the spec: `FileHash` of Message.h, which is not among the sources. The
field order is that of the initializer `FileHash { id, algorithm, hash }`. -/
structure FileHash where
  ownerId : Int
  algorithm : Nat
  digest : QByteArray
  deriving DecidableEq, Repr

/-- Modelled from the spec: `HttpSource` of Message.h, built as `HttpSource { file.id, url }`. -/
structure HttpSource where
  fileId : Int
  url : QString
  deriving DecidableEq, Repr

/-- Modelled from the spec: `EncryptedSource` of Message.h, in the field order of the
initializer in `sendMessage`.  A default-constructed `QUrl` is the empty string. -/
structure EncryptedSource where
  fileId : Int
  url : QString
  cipher : Nat
  key : QByteArray
  iv : QByteArray
  encryptedDataId : Option Int
  hashes : List FileHash
  deriving DecidableEq, Repr

/-- Modelled from the spec: `File` of Message.h (section 3 of the specification). -/
structure File where
  id : Int
  fileGroupId : Int
  name : QString
  localFilePath : QString
  description : QString
  thumbnail : Option QByteArray
  hashes : List FileHash
  httpSources : List HttpSource
  encryptedSources : List EncryptedSource
  deriving DecidableEq, Repr

/-- Modelled from the spec: the enumeration `DeliveryState`, of which the controller
uses `Pending`. -/
inductive DeliveryState where
  | Pending
  | Sent
  | Delivered
  | Error
  | Draft
  deriving DecidableEq, Repr

/-- Modelled from the spec: `Message` of Message.h, with the fields of section 3 of the
specification and the time stamp that `sendMessage` assigns. -/
structure Message where
  id : QString
  stamp : Nat
  deliveryState : DeliveryState
  fileGroupId : Option Int
  files : List File
  errorText : Option QString
  deriving DecidableEq, Repr

/-! ## Effects -/

/-- The `find_if` on `message.files` followed by an assignment through the iterator: the
first file satisfying `pred` is replaced by `f` of it, nothing happens if there is none. -/
def modifyFirst (pred : File → Bool) (f : File → File) : List File → List File
  | [] => []
  | x :: xs => if pred x then f x :: xs else x :: modifyFirst pred f xs

/-- The closures that the controller hands to `MessageDb::updateMessage`. -/
inductive Transform where
  /-- The closure `message.errorText = tr("Upload failed: %1").arg(errorText)`; the text
  carried is the finished one. -/
  | setErrorText (text : QString)
  /-- The closure `message.files = files`. -/
  | setFiles (files : List File)
  /-- The closure of `downloadFile`: `file->localFilePath = filePath` for the file found. -/
  | setLocalFilePath (fileId : Int) (filePath : QString)
  /-- The closure of `deleteFile`: `it->localFilePath.clear()` for the file found. -/
  | clearLocalFilePath (fileId : Int)
  deriving DecidableEq, Repr

/-- The body shared by the closures of `downloadFile` and `deleteFile`: the first file whose
id is `fileId` gets `filePath` as its `localFilePath`. -/
def setPathOf (fileId : Int) (filePath : QString) (files : List File) : List File :=
  modifyFirst (fun file => decide (file.id = fileId))
    (fun file => { file with localFilePath := filePath }) files

/-- What a recorded closure does to the stored message. -/
def Transform.apply : Transform → Message → Message
  | .setErrorText text, message => { message with errorText := some text }
  | .setFiles files, message => { message with files := files }
  | .setLocalFilePath fileId filePath, message =>
    { message with files := setPathOf fileId filePath message.files }
  | .clearLocalFilePath fileId, message =>
    { message with files := setPathOf fileId [] message.files }

/-- Modelled from the spec: `FileProgress` of FileProgressCache.h, which is not among the
sources: bytes transferred, bytes in total and the fraction done.  The fraction is a
`float` that the controller passes on unread; it is carried as its bit pattern, which is
0 for the literal `0.0F`. -/
structure FileProgress where
  bytesSent : Nat
  bytesTotal : Nat
  progress : Nat
  deriving DecidableEq, Repr

/-- Calls on the collaborators, in the order the controller issues them. -/
inductive Effect where
  /-- The call `MessageDb::instance()->addMessage(message, MessageOrigin::UserInput)`. -/
  | addMessage (message : Message)
  /-- The call `MessageDb::instance()->updateMessage(id, closure)`. -/
  | updateMessage (messageId : QString) (transform : Transform)
  /-- The call `messageHandler()->send(message.toQXmpp())`, posted to the client thread. -/
  | send (message : Message)
  /-- The call `QFile::remove(path)`. -/
  | removeFile (path : QString)
  /-- The call `passiveNotificationRequested(text)`. -/
  | passiveNotification (text : QString)
  /-- The call `FileProgressCache::instance().reportProgress(id, progress)`; an empty
  optional removes the entry of the id. -/
  | reportProgress (fileId : Int) (progress : Option FileProgress)
  /-- The signal `errorOccured(id, error)`. -/
  | errorOccured (fileId : Int) (error : QXmppError)
  /-- The calls `interface.reportResult({id, result})` and `interface.reportFinished()`. -/
  | reportResult (result : UploadResult)
  deriving DecidableEq, Repr

/-- The effect is a call of `updateMessage`. -/
def Effect.isUpdate : Effect → Bool
  | .updateMessage _ _ => true
  | _ => false

/-- The effect is an outbound protocol send. -/
def Effect.isSend : Effect → Bool
  | .send _ => true
  | _ => false

/-- Ways in which the code can leave its defined behaviour. -/
inductive Fault where
  /-- A `Q_ASSERT` whose condition is false. -/
  | assertionFailed
  /-- The call `std::get<T>` on a variant holding another alternative. -/
  | badVariantAccess
  /-- The call `value()` on an empty `std::optional`. -/
  | badOptionalAccess
  /-- The operator `->` on an empty `std::optional`. -/
  | emptyOptionalDereference
  /-- A loop that has not ended within the steps allowed to it. -/
  | outOfFuel
  deriving DecidableEq, Repr

/-- A message store: the messages it holds.  Running `updateMessage` applies the
closure to the message with the given id. -/
def runUpdate (messageId : QString) (t : Transform) (store : List Message) : List Message :=
  store.map fun m => if m.id = messageId then t.apply m else m

/-! ## The completion handler of sendMessage -/

/-- The text `tr("Upload failed: %1").arg(errorText)` in the source language. -/
def uploadFailedText (errorText : QString) : QString :=
  "Upload failed: ".toList ++ errorText

/-- The predicate of the `any_of`: the result does not hold a `FileResult`. -/
def notFileResult (result : UploadResult) : Bool :=
  match result.2 with
  | .fileResult _ => false
  | _ => true

/-- The predicate of the `find_if`: the result holds a `QXmppError`. -/
def holdsError (result : UploadResult) : Bool :=
  match result.2 with
  | .error _ => true
  | _ => false

/-- The flag `failed`. -/
def uploadFailed (uploadResults : List UploadResult) : Bool :=
  uploadResults.any notFileResult

/-- Modelled from the spec: `transformMap` of Algorithms.h, which is not among the sources:
the converted pairs in a map from file id to file result, here an association list read
by `lookupResult`.  The converter is `std::get<FileResult>`, which throws on another
alternative. -/
def fileResultsMap : List UploadResult → Except Fault (List (Int × FileResult))
  | [] => .ok []
  | (fileId, .fileResult r) :: rest =>
    match fileResultsMap rest with
    | .ok m => .ok ((fileId, r) :: m)
    | .error e => .error e
  | _ :: _ => .error .badVariantAccess

/-- The call `fileResultsMap.find(file.id)`; `none` is the end iterator. -/
def lookupResult (m : List (Int × FileResult)) (fileId : Int) : Option FileResult :=
  (m.find? fun entry => decide (entry.1 = fileId)).map Prod.snd

/-- The inner `transform` over `s.hashes()`: every hash reads `encryptedDataId.value()`. -/
def encryptedHashes (encryptedDataId : Option Int) :
    List QXmppHash → Except Fault (List FileHash)
  | [] => .ok []
  | hash :: rest =>
    match encryptedDataId with
    | none => .error .badOptionalAccess
    | some ownerId =>
      match encryptedHashes encryptedDataId rest with
      | .ok hs => .ok (⟨ownerId, hash.algorithm, hash.hash⟩ :: hs)
      | .error e => .error e

/-- The lambda that builds one `EncryptedSource`.  `gen k` is the value of the next call
of `generateFileId`; the result carries the call counter afterwards. -/
def mkEncryptedSource (gen : Nat → Int) (k : Nat) (fileId : Int)
    (s : QXmppEncryptedFileSource) : Except Fault (EncryptedSource × Nat) :=
  let sourceUrl : QString :=
    match s.httpSources with
    | [] => []
    | first :: _ => first.url
  let encryptedDataId : Option Int := if s.hashes.isEmpty then none else some (gen k)
  let k1 : Nat := if s.hashes.isEmpty then k else k + 1
  match encryptedHashes encryptedDataId s.hashes with
  | .ok hashes =>
    .ok (⟨fileId, sourceUrl, s.cipher, s.key, s.iv, encryptedDataId, hashes⟩, k1)
  | .error e => .error e

/-- The `transform` over `fileShare.encryptedSources()`, in list order. -/
def mkEncryptedSources (gen : Nat → Int) (fileId : Int) :
    List QXmppEncryptedFileSource → Nat → Except Fault (List EncryptedSource × Nat)
  | [], k => .ok ([], k)
  | s :: rest, k =>
    match mkEncryptedSource gen k fileId s with
    | .error e => .error e
    | .ok (source, k1) =>
      match mkEncryptedSources gen fileId rest k1 with
      | .error e => .error e
      | .ok (sources, k2) => .ok (source :: sources, k2)

/-- The body of the loop `for (auto &file : message.files)`. -/
def populateFile (gen : Nat → Int) (k : Nat) (m : List (Int × FileResult)) (file : File) :
    Except Fault (File × Nat) :=
  match lookupResult m file.id with
  | none => .ok (file, k)
  | some fileResult =>
    let thumbnail : Option QByteArray :=
      match fileResult.dataBlobs with
      | [] => file.thumbnail
      | first :: _ => some first.data
    let httpSources : List HttpSource :=
      fileResult.fileShare.httpSources.map fun s => ⟨file.id, s.url⟩
    match mkEncryptedSources gen file.id fileResult.fileShare.encryptedSources k with
    | .error e => .error e
    | .ok (encryptedSources, k1) =>
      let hashes : List FileHash :=
        fileResult.fileShare.metadata.hashes.map fun hash =>
          ⟨file.id, hash.algorithm, hash.hash⟩
      .ok ({ file with
              thumbnail := thumbnail
              httpSources := httpSources
              encryptedSources := encryptedSources
              hashes := hashes }, k1)

/-- The loop `for (auto &file : message.files)`. -/
def populateFiles (gen : Nat → Int) (m : List (Int × FileResult)) :
    List File → Nat → Except Fault (List File × Nat)
  | [], k => .ok ([], k)
  | file :: rest, k =>
    match populateFile gen k m file with
    | .error e => .error e
    | .ok (file1, k1) =>
      match populateFiles gen m rest k1 with
      | .error e => .error e
      | .ok (files, k2) => .ok (file1 :: files, k2)

/-- The closure that `sendMessage` awaits on the joined uploads: the effects it issues, in
order, and the call counter of the generator afterwards. -/
def completionHandler (gen : Nat → Int) (k : Nat) (message : Message)
    (uploadResults : List UploadResult) : Except Fault (List Effect × Nat) :=
  if uploadFailed uploadResults then
    match uploadResults.find? holdsError with
    | some (_, .error e) =>
      .ok ([.updateMessage message.id (.setErrorText (uploadFailedText e.description))], k)
    | _ => .error .assertionFailed
  else
    match fileResultsMap uploadResults with
    | .error e => .error e
    | .ok m =>
      match populateFiles gen m message.files k with
      | .error e => .error e
      | .ok (files, k1) =>
        .ok ([.updateMessage message.id (.setFiles files),
              .send { message with files := files }], k1)

/-! ## deleteFile -/

/-- The string `downloadsFolder` of `deleteFile`.  `downloadLocation` is
`QStandardPaths::writableLocation(QStandardPaths::DownloadLocation)`, `appName` the build
constant `APPLICATION_DISPLAY_NAME`. -/
def downloadsFolder (p : Platform) (downloadLocation appName : QString) : QString :=
  downloadLocation ++ [separator p] ++ appName

/-- The function `deleteFile`. -/
def deleteFile (p : Platform) (downloadLocation appName : QString) (messageId : QString)
    (file : File) : List Effect :=
  [Effect.updateMessage messageId (.clearLocalFilePath file.id)] ++
    (if (downloadsFolder p downloadLocation appName).isPrefixOf file.localFilePath then
      [Effect.removeFile file.localFilePath]
    else [])


/-- The candidate in the words of the specification: drop the leading problematic
characters; the first non-empty maximal run of other characters is what follows, up to the
next problematic character.  There is none when nothing follows. -/
def firstNonEmptyRun (p : Platform) (fileName : QString) : Option QString :=
  match fileName.dropWhile (isBadChar p) with
  | [] => none
  | c :: cs => some ((c :: cs).takeWhile fun x => !isBadChar p x)

/-! ## downloadFile: the destination path -/

/-- The string `dirPath` of `downloadFile`; it ends in a separator. -/
def downloadDirPath (p : Platform) (downloadLocation appName : QString) : QString :=
  downloadLocation ++ [separator p] ++ appName ++ [separator p]

/-- The lambda `makeFileName`, with the values of the variables it captures. -/
def makeFileName (p : Platform) (dirPath filename fileExtension : QString) : QString :=
  dirPath ++ [separator p] ++ filename ++ ['.'] ++ fileExtension

/-- The path `QUrl::fromLocalFile(dirPath).toLocalFile()`, which `KFileUtils::suggestName`
works with: Qt writes a local file of a URL with forward slashes. -/
def urlLocalFile (p : Platform) (path : QString) : QString :=
  match p with
  | .unix => path
  | .other => path.map fun c => if c = Char.ofNat 92 then '/' else c

/-- The call `QString::lastIndexOf(c)` scanning from position `i`; `none` stands for -1. -/
def lastIndexOfFrom (c : Char) : QString → Nat → Option Nat → Option Nat
  | [], _, found => found
  | x :: xs, i, found => lastIndexOfFrom c xs (i + 1) (if x = c then some i else found)

/-- A match of the regular expression `\((\d+)\)` at the head of the string: the digits
captured. -/
def numberGroupAt : QString → Option QString
  | [] => none
  | c :: rest =>
    if c = '(' then
      let digits := rest.takeWhile Char.isDigit
      if digits.isEmpty then none
      else
        match rest.drop digits.length with
        | [] => none
        | d :: _ => if d = ')' then some digits else none
    else none

/-- The last match of `\((\d+)\)` in the string, scanning from position `i`: the start of
the captured digits and the digits. -/
def lastNumberGroupFrom : QString → Nat → Option (Nat × QString) → Option (Nat × QString)
  | [], _, found => found
  | c :: cs, i, found =>
    match numberGroupAt (c :: cs) with
    | some digits => lastNumberGroupFrom cs (i + 1) (some (i + 1, digits))
    | none => lastNumberGroupFrom cs (i + 1) found

/-- The value of a string of decimal digits. -/
def digitsValue (digits : QString) : Nat :=
  digits.foldl (fun n d => 10 * n + (d.toNat - 48)) 0

/-- The call `QString::toInt()` on a string of digits: 0 when the value does not fit. -/
def toInt (digits : QString) : Nat :=
  if digitsValue digits ≤ 2147483647 then digitsValue digits else 0

/-- The function `KFileUtils::makeSuggestedName` of KCoreAddons: the name is split into a
base name and a suffix, and the last number in parentheses is raised by one, or ` (1)` is
appended when there is none.  `mimeSuffix` is `QMimeDatabase::suffixForFileName`, which
is empty for a name without a dot; such names are the ones `downloadFile` passes whenever
the sanitizer returned a name. -/
def makeSuggestedName (mimeSuffix : QString → QString) (oldName : QString) : QString :=
  let known := mimeSuffix oldName
  let lastDot := lastIndexOfFrom '.' oldName 0 none
  let split : QString × QString :=
    if lastDot = some 0 then (['.'], oldName)
    else if known.isEmpty then
      match lastDot with
      | none => (oldName, [])
      | some i => (oldName.take i, oldName.drop i)
    else (oldName.take (oldName.length - (known.length + 1)), '.' :: known)
  let basename : QString :=
    match lastNumberGroupFrom oldName 0 none with
    | some (start, digits) =>
      if start ≤ split.1.length then
        split.1.take start ++ Nat.toDigits 10 (toInt digits + 1) ++
          split.1.drop (start + digits.length)
      else split.1
    | none => split.1 ++ " (1)".toList
  basename ++ split.2

/-- The loop `while (QFileInfo::exists(basePath + suggestedName))` of
`KFileUtils::suggestName`, run for at most `fuel` tests. -/
def suggestLoop (fileExists : QString → Bool) (mimeSuffix : QString → QString)
    (basePath : QString) : Nat → QString → Option QString
  | 0, _ => none
  | fuel + 1, suggestedName =>
    if fileExists (basePath ++ suggestedName) then
      suggestLoop fileExists mimeSuffix basePath fuel (makeSuggestedName mimeSuffix suggestedName)
    else some suggestedName

/-- The function `KFileUtils::suggestName` of KCoreAddons for a local directory. -/
def suggestName (fuel : Nat) (fileExists : QString → Bool) (mimeSuffix : QString → QString)
    (localDir oldName : QString) : Option QString :=
  suggestLoop fileExists mimeSuffix (localDir ++ ['/']) fuel
    (makeSuggestedName mimeSuffix oldName)

/-- Modelled from the spec: `andThen` of Algorithms.h, which is not among the sources:
the function is applied to the value of the optional when there is one, and an empty
optional stays empty ("sanitize the provider-declared name if present"). -/
def andThen {α β : Type} (option : Option α) (func : α → Option β) : Option β :=
  match option with
  | none => none
  | some value => func value

/-- What `downloadFile` reads from its surroundings when it names the destination. -/
structure DownloadEnv where
  /-- The build. -/
  platform : Platform
  /-- The test `QFile::exists`. -/
  fileExists : QString → Bool
  /-- The lookup `QMimeDatabase::suffixForFileName`. -/
  mimeSuffix : QString → QString
  /-- The path `QStandardPaths::writableLocation(QStandardPaths::DownloadLocation)`. -/
  downloadLocation : QString
  /-- The build constant `APPLICATION_DISPLAY_NAME`. -/
  appName : QString
  /-- The string `QDateTime::currentDateTime().toString()`. -/
  dateString : QString

/-- The candidate path: the first value of `filePath` in `downloadFile`.  The call
`mediaType()->preferredSuffix()` dereferences the optional media type. -/
def candidatePath (env : DownloadEnv) (fileShare : QXmppFileShare) : Except Fault QString :=
  let dirPath := downloadDirPath env.platform env.downloadLocation env.appName
  let maybeFileName := andThen fileShare.metadata.filename (sanitizeFilename env.platform)
  match fileShare.metadata.mediaType with
  | none => .error .emptyOptionalDereference
  | some mediaType =>
    let fileExtension := mediaType.preferredSuffix
    let filename := maybeFileName.getD env.dateString
    .ok (makeFileName env.platform dirPath filename fileExtension)

/-- The path that `downloadFile` opens for writing: the value of `filePath` at
`std::make_unique<QFile>(filePath)`. -/
def downloadFilePath (fuel : Nat) (env : DownloadEnv) (fileShare : QXmppFileShare) :
    Except Fault QString :=
  let dirPath := downloadDirPath env.platform env.downloadLocation env.appName
  let maybeFileName := andThen fileShare.metadata.filename (sanitizeFilename env.platform)
  match fileShare.metadata.mediaType with
  | none => .error .emptyOptionalDereference
  | some mediaType =>
    let fileExtension := mediaType.preferredSuffix
    let filename := maybeFileName.getD env.dateString
    let filePath := makeFileName env.platform dirPath filename fileExtension
    if env.fileExists filePath then
      match suggestName fuel env.fileExists env.mimeSuffix
          (urlLocalFile env.platform dirPath) filename with
      | none => .error .outOfFuel
      | some suggested => .ok (makeFileName env.platform dirPath suggested fileExtension)
    else .ok filePath

/-- Two paths name the same file when they differ only in repeated separators: the
path with every run of `/` reduced to one. -/
def collapseSlashes : QString → QString
  | [] => []
  | [c] => [c]
  | c :: d :: rest =>
    if c = '/' ∧ d = '/' then collapseSlashes (d :: rest)
    else c :: collapseSlashes (d :: rest)

/-- The test `QFile::exists` of a Unix file system holding regular files at the paths
`disk` and nothing else. -/
def existsOn (disk : List QString) (path : QString) : Bool :=
  decide (collapseSlashes path ∈ disk.map collapseSlashes)

/-- The call `QFile::remove(path)` on the same file system: the file that the path names is
gone, under whatever spelling of its path the list holds it. -/
def removeFromDisk (path : QString) (disk : List QString) : List QString :=
  disk.filter fun q => decide (collapseSlashes q ≠ collapseSlashes path)

/-- The file system after the effects of a call. -/
def diskAfter : List Effect → List QString → List QString
  | [], disk => disk
  | .removeFile path :: rest, disk => diskAfter rest (removeFromDisk path disk)
  | _ :: rest, disk => diskAfter rest disk

/-! ## sendMessage: the assignment step -/

/-- The name `QUrl::fromLocalFile(path).fileName()`: what follows the last slash of the
path, the whole path when it has none. -/
def urlFileName (p : Platform) (path : QString) : QString :=
  match lastIndexOfFrom '/' (urlLocalFile p path) 0 none with
  | none => urlLocalFile p path
  | some i => (urlLocalFile p path).drop (i + 1)

/-- The loop `for (auto &file : message.files)` of the assignment step: every file gets the
group id of the message, the value of the next call of `generateFileId` as its id and the
file name of its local path as its name. -/
def assignFiles (p : Platform) (gen : Nat → Int) (fileGroupId : Int) :
    List File → Nat → List File × Nat
  | [], k => ([], k)
  | file :: rest, k =>
    let r := assignFiles p gen fileGroupId rest (k + 1)
    ({ file with
        fileGroupId := fileGroupId
        id := gen k
        name := urlFileName p file.localFilePath } :: r.1, r.2)

/-- What `sendMessage` reads from its surroundings in the assignment step. -/
structure SendEnv where
  /-- The build. -/
  platform : Platform
  /-- The string `QXmppUtils::generateStanzaUuid()`. -/
  stanzaUuid : QString
  /-- The time `QDateTime::currentDateTimeUtc()`. -/
  currentDateTimeUtc : Nat

/-- The statements of `sendMessage` before `addMessage`: the assertion on the files, the
three assignments, the group id and the loop over the files.  The result is the message
as it then stands and the call counter of the generator. -/
def prepareMessage (env : SendEnv) (gen : Nat → Int) (k : Nat) (message : Message) :
    Except Fault (Message × Nat) :=
  if message.files.isEmpty then .error .assertionFailed
  else
    let fileGroupId : Int :=
      match message.fileGroupId with
      | some g => g
      | none => gen k
    let k1 : Nat :=
      match message.fileGroupId with
      | some _ => k
      | none => k + 1
    let r := assignFiles env.platform gen fileGroupId message.files k1
    .ok ({ message with
            id := env.stanzaUuid
            stamp := env.currentDateTimeUtc
            deliveryState := .Pending
            fileGroupId := some fileGroupId
            files := r.1 }, r.2)

/-- The function `sendMessage` up to and with the call of `addMessage`: the effects issued,
the message handed on to the uploads and the call counter of the generator. -/
def sendMessageStart (env : SendEnv) (gen : Nat → Int) (k : Nat) (message : Message) :
    Except Fault (List Effect × Message × Nat) :=
  match prepareMessage env gen k message with
  | .error e => .error e
  | .ok (prepared, k1) => .ok ([.addMessage prepared], prepared, k1)

/-! ## Transfer tasks: sendFile and the task of downloadFile -/

/-- What the provider's task shows when it emits `progressChanged`: `bytesTransferred()`,
`bytesTotal()` and the bit pattern of `progress()`. -/
structure TransferReading where
  bytesTransferred : Nat
  bytesTotal : Nat
  progress : Nat
  deriving DecidableEq, Repr

/-- The sample `FileProgress { bytesTransferred(), quint64(bytesTotal()), progress() }`. -/
def progressSample (r : TransferReading) : FileProgress :=
  ⟨r.bytesTransferred, r.bytesTotal % 2 ^ 64, r.progress⟩

/-- The closure connected to `progressChanged`, run once for each reading.  The task that
emits the signal is alive, so the weak pointer locks. -/
def progressChanged (fileId : Int) (readings : List TransferReading) : List Effect :=
  readings.map fun r => Effect.reportProgress fileId (some (progressSample r))

/-- The closure that `sendFile` connects to `QXmppFileUpload::finished`. -/
def uploadFinished (fileId : Int) (result : UploadOutcome) : List Effect :=
  [Effect.reportProgress fileId none] ++
    (match result with
      | .error e => [Effect.errorOccured fileId e]
      | _ => []) ++
    [Effect.reportResult (fileId, result)]

/-- The function `sendFile` with the life of the upload it starts: `bytesTotal` is what the
task shows right after `uploadFile`, `readings` what it shows at each `progressChanged`,
`result` what it ends with. -/
def sendFile (fileId : Int) (bytesTotal : Nat) (readings : List TransferReading)
    (result : UploadOutcome) : List Effect :=
  [Effect.reportProgress fileId (some ⟨0, bytesTotal % 2 ^ 64, 0⟩)] ++
    progressChanged fileId readings ++ uploadFinished fileId result

/-- The variant `QXmppFileDownload::Result`: downloaded, cancelled or an error. -/
inductive DownloadOutcome where
  | downloaded
  | cancelled
  | error (e : QXmppError)
  deriving DecidableEq, Repr

/-- The text `tr("Couldn't download file: %1").arg(errorText)` in the source language. -/
def couldNotDownloadText (errorText : QString) : QString :=
  "Couldn't download file: ".toList ++ errorText

/-- The closure that `downloadFile` connects to `QXmppFileDownload::finished`. -/
def downloadFinished (messageId : QString) (fileId : Int) (filePath : QString)
    (result : DownloadOutcome) : List Effect :=
  (match result with
    | .error e => [Effect.passiveNotification (couldNotDownloadText e.description)]
    | .downloaded => [Effect.updateMessage messageId (.setLocalFilePath fileId filePath)]
    | .cancelled => []) ++
    [Effect.reportProgress fileId none]

/-- The function `downloadFile` with the life of the download it starts.  `fileShare` is
`file.toQXmpp()`, `canOpen` tells whether `output->open(QIODevice::WriteOnly)` succeeds;
when it does not, the function returns before a task exists. -/
def downloadFile (fuel : Nat) (env : DownloadEnv) (canOpen : QString → Bool)
    (messageId : QString) (fileId : Int) (fileShare : QXmppFileShare)
    (readings : List TransferReading) (result : DownloadOutcome) :
    Except Fault (List Effect) :=
  match downloadFilePath fuel env fileShare with
  | .error e => .error e
  | .ok filePath =>
    if canOpen filePath then
      .ok (progressChanged fileId readings ++ downloadFinished messageId fileId filePath result)
    else .ok []

/-- The effect publishes a sample for the id. -/
def Effect.isSampleFor (fileId : Int) : Effect → Bool
  | .reportProgress i (some _) => decide (i = fileId)
  | _ => false

/-- The effect retires the entry of the id. -/
def Effect.isRetirementOf (fileId : Int) : Effect → Bool
  | .reportProgress i none => decide (i = fileId)
  | _ => false

/-- The entry of the id in the progress cache after the effects, the last write winning;
`current` is the entry before them. -/
def progressAfter (fileId : Int) : List Effect → Option FileProgress → Option FileProgress
  | [], current => current
  | .reportProgress i sample :: rest, current =>
    progressAfter fileId rest (if i = fileId then sample else current)
  | _ :: rest, current => progressAfter fileId rest current

/-- Some sample for the id is published after the entry of the id was retired. -/
def publishedAfterRetirement (fileId : Int) : List Effect → Bool
  | [] => false
  | x :: rest =>
    (x.isRetirementOf fileId && rest.any (Effect.isSampleFor fileId)) ||
      publishedAfterRetirement fileId rest

/-! ## The sanitizer: the loop computes the first non-empty run -/

theorem tokenize_extends (p : Platform) (cs : List Char) :
    ∀ parts substr, ∃ extra, finishParts (tokenize p cs parts substr) = parts ++ extra := by
  induction cs with
  | nil =>
    intro parts substr
    by_cases h : substr.isEmpty
    · exact ⟨[], by simp [tokenize, finishParts, h]⟩
    · exact ⟨[substr], by simp [tokenize, finishParts, h]⟩
  | cons c cs ih =>
    intro parts substr
    by_cases hc : isBadChar p c
    · obtain ⟨extra, he⟩ := ih (parts ++ [substr]) []
      exact ⟨substr :: extra, by simp [tokenize, hc, he]⟩
    · obtain ⟨extra, he⟩ := ih parts (substr ++ [c])
      exact ⟨extra, by simp [tokenize, hc, he]⟩

theorem find_after_found (p : Platform) (cs : List Char) (parts : List QString)
    (substr x : QString) (h : parts.find? (fun part => !part.isEmpty) = some x) :
    (finishParts (tokenize p cs parts substr)).find? (fun part => !part.isEmpty) = some x := by
  obtain ⟨extra, he⟩ := tokenize_extends p cs parts substr
  rw [he, List.find?_append, h]
  rfl

theorem find_all_empty (parts : List QString) (h : ∀ x ∈ parts, x = []) :
    parts.find? (fun part => !part.isEmpty) = none := by
  rw [List.find?_eq_none]
  intro x hx
  simp [h x hx]

theorem find_run_open (p : Platform) (cs : List Char) :
    ∀ (parts : List QString) (substr : QString), substr ≠ [] → (∀ x ∈ parts, x = []) →
      (finishParts (tokenize p cs parts substr)).find? (fun part => !part.isEmpty)
        = some (substr ++ cs.takeWhile fun x => !isBadChar p x) := by
  induction cs with
  | nil =>
    intro parts substr hs hp
    have hne : substr.isEmpty = false := by
      cases substr with
      | nil => exact absurd rfl hs
      | cons a l => rfl
    simp [tokenize, finishParts, hne, List.find?_append, find_all_empty parts hp]
  | cons c cs ih =>
    intro parts substr hs hp
    have hne : substr.isEmpty = false := by
      cases substr with
      | nil => exact absurd rfl hs
      | cons a l => rfl
    by_cases hc : isBadChar p c
    · have hfound : (parts ++ [substr]).find? (fun part => !part.isEmpty) = some substr := by
        simp [List.find?_append, find_all_empty parts hp, hne]
      have := find_after_found p cs (parts ++ [substr]) [] substr hfound
      simp [tokenize, hc, this]
    · have := ih parts (substr ++ [c]) (by simp) hp
      simp [tokenize, hc, this]

theorem find_run_closed (p : Platform) (cs : List Char) :
    ∀ (parts : List QString), (∀ x ∈ parts, x = []) →
      (finishParts (tokenize p cs parts [])).find? (fun part => !part.isEmpty)
        = firstNonEmptyRun p cs := by
  induction cs with
  | nil =>
    intro parts hp
    simp [tokenize, finishParts, firstNonEmptyRun, find_all_empty parts hp]
  | cons c cs ih =>
    intro parts hp
    by_cases hc : isBadChar p c
    · have hp2 : ∀ x ∈ parts ++ [[]], x = ([] : QString) := by
        intro x hx
        rcases List.mem_append.mp hx with h | h
        · exact hp x h
        · simpa using h
      have := ih (parts ++ [[]]) hp2
      simp only [tokenize, hc, if_true, this]
      simp [firstNonEmptyRun, List.dropWhile, hc]
    · have := find_run_open p cs parts [c] (by simp) hp
      simp only [tokenize, hc, List.nil_append, Bool.false_eq_true, if_false]
      rw [this]
      simp [firstNonEmptyRun, List.dropWhile, List.takeWhile, hc]

/-- The loop of `sanitizeFilename` finds the first non-empty run of the specification. -/
theorem relevantPart_eq_firstNonEmptyRun (p : Platform) (fileName : QString) :
    relevantPart p fileName = firstNonEmptyRun p fileName := by
  have := find_run_closed p fileName [] (by simp)
  simpa [relevantPart, filenameParts] using this

theorem dropWhile_head_false {α : Type} (q : α → Bool) :
    ∀ (l : List α) (c : α) (cs : List α), l.dropWhile q = c :: cs → q c = false := by
  intro l
  induction l with
  | nil => intro c cs h; simp at h
  | cons a l ih =>
    intro c cs h
    by_cases ha : q a = true
    · rw [List.dropWhile_cons_of_pos ha] at h
      exact ih c cs h
    · rw [List.dropWhile_cons_of_neg ha] at h
      injection h with h1 h2
      subst h1
      simpa using ha

/-- The run of the specification is non-empty, free of problematic characters, preceded
by problematic characters only and followed by a problematic character or by nothing. -/
theorem firstNonEmptyRun_spec (p : Platform) (fileName n : QString)
    (h : firstNonEmptyRun p fileName = some n) :
    n ≠ [] ∧ (∀ c ∈ n, isBadChar p c = false) ∧
      ∃ pre s, fileName = pre ++ n ++ s ∧ (∀ c ∈ pre, isBadChar p c = true) ∧
        (s = [] ∨ ∃ c t, s = c :: t ∧ isBadChar p c = true) := by
  unfold firstNonEmptyRun at h
  cases hd : fileName.dropWhile (isBadChar p) with
  | nil => rw [hd] at h; simp at h
  | cons c cs =>
    rw [hd] at h
    have hc : isBadChar p c = false := dropWhile_head_false _ fileName c cs hd
    have hn : n = (c :: cs).takeWhile (fun x => !isBadChar p x) := by
      injection h with h; exact h.symm
    refine ⟨?_, ?_, fileName.takeWhile (isBadChar p),
      (c :: cs).dropWhile (fun x => !isBadChar p x), ?_, ?_, ?_⟩
    · rw [hn]; simp [List.takeWhile, hc]
    · intro x hx
      rw [hn] at hx
      have := List.mem_takeWhile_imp hx
      simpa using this
    · rw [hn, List.append_assoc, List.takeWhile_append_dropWhile, ← hd,
        List.takeWhile_append_dropWhile]
    · intro x hx
      exact List.mem_takeWhile_imp hx
    · cases hs : (c :: cs).dropWhile (fun x => !isBadChar p x) with
      | nil => exact Or.inl rfl
      | cons y t =>
        refine Or.inr ⟨y, t, rfl, ?_⟩
        have := dropWhile_head_false _ (c :: cs) y t hs
        simpa using this

/-- There is no run exactly when every character is problematic. -/
theorem firstNonEmptyRun_eq_none_iff (p : Platform) (fileName : QString) :
    firstNonEmptyRun p fileName = none ↔ ∀ c ∈ fileName, isBadChar p c = true := by
  unfold firstNonEmptyRun
  constructor
  · intro h
    cases hd : fileName.dropWhile (isBadChar p) with
    | nil => exact List.dropWhile_eq_nil_iff.mp hd
    | cons c cs => rw [hd] at h; simp at h
  · intro h
    rw [List.dropWhile_eq_nil_iff.mpr h]

/-- The result of `sanitizeFilename` in terms of the run of the specification. -/
theorem sanitizeFilename_eq (p : Platform) (fileName : QString) :
    sanitizeFilename p fileName =
      match firstNonEmptyRun p fileName with
      | none => none
      | some filename => if isBadName p filename then none else some filename := by
  unfold sanitizeFilename
  rw [relevantPart_eq_firstNonEmptyRun]

/-! ## Claims on the sanitizer -/

/-- C4: whenever `sanitizeFilename` returns a name, the name is the first non-empty maximal
run of non-problematic characters of the input: it is non-empty, it holds no problematic
character (no dot, slash, backslash or control character), the input is a block of
problematic characters, then the name, then a rest that is empty or begins with a
problematic character.  On both builds `"a.b/c"` gives `"a"`. -/
theorem sanitizeFilename_first_run (p : Platform) (fileName n : QString)
    (h : sanitizeFilename p fileName = some n) :
    (n ≠ [] ∧ (∀ c ∈ n, isBadChar p c = false) ∧
      ('.' ∉ n ∧ '/' ∉ n ∧ Char.ofNat 92 ∉ n ∧ ∀ c ∈ n, isOtherControl c = false) ∧
      ∃ pre s, fileName = pre ++ n ++ s ∧ (∀ c ∈ pre, isBadChar p c = true) ∧
        (s = [] ∨ ∃ c t, s = c :: t ∧ isBadChar p c = true)) ∧
    sanitizeFilename p "a.b/c".toList = some "a".toList := by
  have hrun : firstNonEmptyRun p fileName = some n := by
    rw [sanitizeFilename_eq] at h
    cases hf : firstNonEmptyRun p fileName with
    | none => rw [hf] at h; simp at h
    | some m =>
      rw [hf] at h
      by_cases hb : isBadName p m = true
      · simp [hb] at h
      · simp [hb] at h; rw [h]
  obtain ⟨hne, hgood, hdec⟩ := firstNonEmptyRun_spec p fileName n hrun
  have hdot : isBadChar p '.' = true := by cases p <;> decide
  have hslash : isBadChar p '/' = true := by cases p <;> decide
  have hback : isBadChar p (Char.ofNat 92) = true := by cases p <;> decide
  refine ⟨⟨hne, hgood, ⟨?_, ?_, ?_, ?_⟩, hdec⟩, ?_⟩
  · intro hm; have := hgood _ hm; rw [hdot] at this; cases this
  · intro hm; have := hgood _ hm; rw [hslash] at this; cases this
  · intro hm; have := hgood _ hm; rw [hback] at this; cases this
  · intro c hm
    have := hgood c hm
    unfold isBadChar at this
    simp only [Bool.or_eq_false_iff] at this
    exact this.2
  · cases p <;> decide

/-- Witness of C4 at the input `"a.b/c"` of the Unix build. -/
theorem sanitizeFilename_first_run_witness :
    "a".toList ≠ [] ∧ (∀ c ∈ "a".toList, isBadChar .unix c = false) ∧
      ∃ pre s, "a.b/c".toList = pre ++ "a".toList ++ s ∧
        (∀ c ∈ pre, isBadChar .unix c = true) ∧
        (s = [] ∨ ∃ c t, s = c :: t ∧ isBadChar .unix c = true) :=
  have h := (sanitizeFilename_first_run .unix "a.b/c".toList "a".toList (by decide)).1
  ⟨h.1, h.2.1, h.2.2.2⟩

/-- C5: an input made of problematic characters only, the empty one included, gives no
name on either build; on the Unix build, whose list of reserved names is empty, a name is
returned exactly when the input holds a character that is not problematic. -/
theorem sanitizeFilename_none_iff_all_bad (p : Platform) (fileName : QString) :
    ((∀ c ∈ fileName, isBadChar p c = true) → sanitizeFilename p fileName = none) ∧
    sanitizeFilename p [] = none ∧
    bad_names .unix = [] ∧
    (sanitizeFilename .unix fileName = none ↔ ∀ c ∈ fileName, isBadChar .unix c = true) ∧
    ((∃ n, sanitizeFilename .unix fileName = some n) ↔
      ∃ c ∈ fileName, isBadChar .unix c = false) := by
  have hunix : sanitizeFilename .unix fileName = none ↔
      ∀ c ∈ fileName, isBadChar .unix c = true := by
    rw [sanitizeFilename_eq, ← firstNonEmptyRun_eq_none_iff]
    cases firstNonEmptyRun .unix fileName with
    | none => simp
    | some m => simp [isBadName, bad_names]
  refine ⟨?_, ?_, rfl, hunix, ?_⟩
  · intro h
    rw [sanitizeFilename_eq, (firstNonEmptyRun_eq_none_iff p fileName).mpr h]
  · rw [sanitizeFilename_eq, (firstNonEmptyRun_eq_none_iff p []).mpr (by simp)]
  · constructor
    · rintro ⟨n, hn⟩
      by_contra hcon
      have hall : ∀ c ∈ fileName, isBadChar .unix c = true := by
        intro c hc
        by_contra hb
        exact hcon ⟨c, hc, by simpa using hb⟩
      rw [hunix.mpr hall] at hn
      cases hn
    · rintro ⟨c, hc, hb⟩
      cases hs : sanitizeFilename .unix fileName with
      | some n => exact ⟨n, rfl⟩
      | none =>
        have := hunix.mp hs c hc
        rw [hb] at this
        cases this

/-- Witness of C5: the input `"./."` of the Unix build has problematic characters only. -/
theorem sanitizeFilename_none_iff_all_bad_witness :
    sanitizeFilename .unix "./.".toList = none :=
  (sanitizeFilename_none_iff_all_bad .unix "./.".toList).1 (by decide)

/-- C6: on the build with reserved names, an input holding a character that is not
problematic has a candidate, its first non-empty run, and `sanitizeFilename` returns no
name exactly when the candidate is one of the reserved names, compared as a whole and
with case; otherwise it returns the candidate. -/
theorem sanitizeFilename_reserved_names (fileName : QString)
    (h : ∃ c ∈ fileName, isBadChar .other c = false) :
    (∃ candidate, firstNonEmptyRun .other fileName = some candidate ∧
      (candidate ≠ [] ∧ (∀ c ∈ candidate, isBadChar .other c = false) ∧
        ∃ pre s, fileName = pre ++ candidate ++ s ∧ (∀ c ∈ pre, isBadChar .other c = true) ∧
          (s = [] ∨ ∃ c t, s = c :: t ∧ isBadChar .other c = true)) ∧
      (sanitizeFilename .other fileName = none ↔ candidate ∈ bad_names .other) ∧
      (candidate ∉ bad_names .other → sanitizeFilename .other fileName = some candidate)) ∧
    bad_names .other =
      ["CON".toList, "PRN".toList, "AUX".toList, "NUL".toList,
       "COM1".toList, "COM2".toList, "COM3".toList, "COM4".toList,
       "COM5".toList, "COM6".toList, "COM7".toList, "COM8".toList, "COM9".toList,
       "LPT1".toList, "LPT2".toList, "LPT3".toList, "LPT4".toList, "LPT5".toList,
       "LPT6".toList, "LPT7".toList, "LPT8".toList, "LPT9".toList] ∧
    sanitizeFilename .other "CON".toList = none ∧
    sanitizeFilename .other "CON.txt".toList = none ∧
    sanitizeFilename .other "con".toList = some "con".toList ∧
    sanitizeFilename .other "CONSOLE".toList = some "CONSOLE".toList := by
  refine ⟨?_, rfl, by decide, by decide, by decide, by decide⟩
  cases hf : firstNonEmptyRun .other fileName with
  | none =>
    obtain ⟨c, hc, hb⟩ := h
    have := (firstNonEmptyRun_eq_none_iff .other fileName).mp hf c hc
    rw [hb] at this
    cases this
  | some candidate =>
    refine ⟨candidate, rfl, firstNonEmptyRun_spec .other fileName candidate hf, ?_, ?_⟩
    · rw [sanitizeFilename_eq, hf]
      by_cases hb : candidate ∈ bad_names .other
      · simp [isBadName, hb]
      · simp [isBadName, hb]
    · intro hb
      rw [sanitizeFilename_eq, hf]
      simp [isBadName, hb]

/-- Witness of C6 at the input `"CON.txt"`, whose candidate is the reserved name `CON`. -/
theorem sanitizeFilename_reserved_names_witness :
    ∃ candidate, firstNonEmptyRun .other "CON.txt".toList = some candidate ∧
      (sanitizeFilename .other "CON.txt".toList = none ↔ candidate ∈ bad_names .other) :=
  have h := (sanitizeFilename_reserved_names "CON.txt".toList
    ⟨'C', by decide, by decide⟩).1
  h.elim fun candidate hc => ⟨candidate, hc.1, hc.2.2.1⟩

/-! ## The completion handler: auxiliary facts -/

theorem encryptedHashes_some (ownerId : Int) (hs : List QXmppHash) :
    encryptedHashes (some ownerId) hs
      = .ok (hs.map fun hash => ⟨ownerId, hash.algorithm, hash.hash⟩) := by
  induction hs with
  | nil => rfl
  | cons h hs ih => simp [encryptedHashes, ih]

/-- The value of `mkEncryptedSource`: it never reads an empty `encryptedDataId`. -/
theorem mkEncryptedSource_eq (gen : Nat → Int) (k : Nat) (fileId : Int)
    (s : QXmppEncryptedFileSource) :
    mkEncryptedSource gen k fileId s =
      .ok (⟨fileId, (match s.httpSources with | [] => [] | first :: _ => first.url),
            s.cipher, s.key, s.iv,
            (if s.hashes.isEmpty then none else some (gen k)),
            s.hashes.map fun hash => ⟨gen k, hash.algorithm, hash.hash⟩⟩,
           if s.hashes.isEmpty then k else k + 1) := by
  unfold mkEncryptedSource
  cases hh : s.hashes with
  | nil => simp [encryptedHashes]
  | cons h hs => simp [encryptedHashes_some]

/-- The sources built for a file, one for each source of the provider and in its order. -/
theorem mkEncryptedSources_spec (gen : Nat → Int) (fileId : Int)
    (sources : List QXmppEncryptedFileSource) :
    ∀ k, ∃ built k1, mkEncryptedSources gen fileId sources k = .ok (built, k1) ∧
      List.Forall₂ (fun s b => ∃ k0 k2, mkEncryptedSource gen k0 fileId s = .ok (b, k2))
        sources built := by
  induction sources with
  | nil => intro k; exact ⟨[], k, rfl, List.Forall₂.nil⟩
  | cons s rest ih =>
    intro k
    obtain ⟨built, k1, hb, hall⟩ := ih (if s.hashes.isEmpty then k else k + 1)
    refine ⟨_ :: built, k1, ?_, List.Forall₂.cons ⟨k, _, mkEncryptedSource_eq gen k fileId s⟩ hall⟩
    simp only [mkEncryptedSources, mkEncryptedSource_eq, hb]

theorem fileResultsMap_spec :
    ∀ (rs : List UploadResult), uploadFailed rs = false →
      ∃ m, fileResultsMap rs = .ok m ∧ m.map Prod.fst = rs.map Prod.fst ∧
        ∀ fileId r, (fileId, r) ∈ m ↔ (fileId, UploadOutcome.fileResult r) ∈ rs := by
  intro rs
  induction rs with
  | nil => intro _; exact ⟨[], rfl, rfl, by simp⟩
  | cons a rs ih =>
    intro h
    obtain ⟨fileId, outcome⟩ := a
    simp only [uploadFailed, List.any_cons, Bool.or_eq_false_iff] at h
    obtain ⟨ha, hrest⟩ := h
    obtain ⟨m, hm, hkeys, hmem⟩ := ih hrest
    cases outcome with
    | fileResult r =>
      refine ⟨(fileId, r) :: m, by simp [fileResultsMap, hm], by simp [hkeys], ?_⟩
      intro i x
      simp only [List.mem_cons, Prod.mk.injEq, hmem, UploadOutcome.fileResult.injEq]
    | cancelled => simp [notFileResult] at ha
    | error e => simp [notFileResult] at ha

theorem lookupResult_of_mem (m : List (Int × FileResult)) (fileId : Int) (r : FileResult)
    (hnodup : (m.map Prod.fst).Nodup) (hmem : (fileId, r) ∈ m) :
    lookupResult m fileId = some r := by
  induction m with
  | nil => simp at hmem
  | cons a m ih =>
    obtain ⟨i, x⟩ := a
    simp only [List.map_cons, List.nodup_cons] at hnodup
    rcases List.mem_cons.mp hmem with h | h
    · injection h with h1 h2
      subst h1; subst h2
      simp [lookupResult]
    · have hne : i ≠ fileId := by
        intro he
        apply hnodup.1
        rw [he]
        exact List.mem_map.mpr ⟨(fileId, r), h, rfl⟩
      have := ih hnodup.2 h
      simp only [lookupResult] at this ⊢
      simp [List.find?, hne, this]

/-- What the loop body does to one file: nothing when the map has no result for its id,
otherwise the sources, hashes and thumbnail come from the result found. -/
theorem populateFile_spec (gen : Nat → Int) (k : Nat) (m : List (Int × FileResult))
    (file : File) :
    ∃ file1 k1, populateFile gen k m file = .ok (file1, k1) ∧ file1.id = file.id ∧
      file1.fileGroupId = file.fileGroupId ∧ file1.name = file.name ∧
      file1.localFilePath = file.localFilePath ∧ file1.description = file.description ∧
      (lookupResult m file.id = none → file1 = file) ∧
      ∀ r, lookupResult m file.id = some r →
        file1.hashes
          = r.fileShare.metadata.hashes.map (fun hash => ⟨file.id, hash.algorithm, hash.hash⟩) ∧
        file1.httpSources = r.fileShare.httpSources.map (fun s => ⟨file.id, s.url⟩) ∧
        List.Forall₂ (fun s b => ∃ k0 k2, mkEncryptedSource gen k0 file.id s = .ok (b, k2))
          r.fileShare.encryptedSources file1.encryptedSources := by
  unfold populateFile
  cases hl : lookupResult m file.id with
  | none => exact ⟨file, k, rfl, rfl, rfl, rfl, rfl, rfl, fun _ => rfl, by intro r hr; cases hr⟩
  | some r =>
    obtain ⟨built, k1, hb, hall⟩ :=
      mkEncryptedSources_spec gen file.id r.fileShare.encryptedSources k
    dsimp only
    rw [hb]
    refine ⟨_, k1, rfl, rfl, rfl, rfl, rfl, rfl, (by intro h; cases h), ?_⟩
    intro r2 hr2
    injection hr2 with hr2
    subst hr2
    exact ⟨rfl, rfl, hall⟩

/-- The loop over the files ends, and every file of the result is the loop body applied
to the file at the same position. -/
theorem populateFiles_spec (gen : Nat → Int) (m : List (Int × FileResult))
    (files : List File) :
    ∀ k, ∃ files1 k1, populateFiles gen m files k = .ok (files1, k1) ∧
      List.Forall₂ (fun f f1 => ∃ k0 k2, populateFile gen k0 m f = .ok (f1, k2))
        files files1 := by
  induction files with
  | nil => intro k; exact ⟨[], k, rfl, List.Forall₂.nil⟩
  | cons f rest ih =>
    intro k
    obtain ⟨f1, k1, hf, -⟩ := populateFile_spec gen k m f
    obtain ⟨files1, k2, hfs, hall⟩ := ih k1
    refine ⟨f1 :: files1, k2, ?_, List.Forall₂.cons ⟨k, k1, hf⟩ hall⟩
    simp only [populateFiles, hf, hfs]

/-- The success branch of the handler: a file-list update, then the send. -/
theorem completionHandler_success (gen : Nat → Int) (k : Nat) (message : Message)
    (uploadResults : List UploadResult) (h : uploadFailed uploadResults = false) :
    ∃ m files k1, fileResultsMap uploadResults = .ok m ∧
      populateFiles gen m message.files k = .ok (files, k1) ∧
      completionHandler gen k message uploadResults
        = .ok ([.updateMessage message.id (.setFiles files),
                .send { message with files := files }], k1) := by
  obtain ⟨m, hm, -, -⟩ := fileResultsMap_spec uploadResults h
  obtain ⟨files, k1, hf, -⟩ := populateFiles_spec gen m message.files k
  refine ⟨m, files, k1, hm, hf, ?_⟩
  simp [completionHandler, h, hm, hf]

/-- The failure branch of the handler when the first error of the list is `e`. -/
theorem completionHandler_error (gen : Nat → Int) (k : Nat) (message : Message)
    (before after : List UploadResult) (fileId : Int) (e : QXmppError)
    (h : ∀ r ∈ before, holdsError r = false) :
    completionHandler gen k message (before ++ (fileId, .error e) :: after)
      = .ok ([.updateMessage message.id (.setErrorText (uploadFailedText e.description))], k) := by
  have hfailed : uploadFailed (before ++ (fileId, .error e) :: after) = true := by
    simp [uploadFailed, notFileResult]
  have hfind : (before ++ (fileId, UploadOutcome.error e) :: after).find? holdsError
      = some (fileId, .error e) := by
    rw [List.find?_append, List.find?_eq_none.mpr (by intro x hx; simp [h x hx])]
    simp [List.find?, holdsError]
  simp [completionHandler, hfailed, hfind]

/-- A list with an error splits at its first error. -/
theorem split_at_first_error (uploadResults : List UploadResult)
    (h : ∃ r ∈ uploadResults, holdsError r = true) :
    ∃ before fileId e after, uploadResults = before ++ (fileId, .error e) :: after ∧
      ∀ r ∈ before, holdsError r = false := by
  induction uploadResults with
  | nil => obtain ⟨r, hr, -⟩ := h; simp at hr
  | cons a rs ih =>
    by_cases ha : holdsError a = true
    · obtain ⟨fileId, outcome⟩ := a
      cases outcome with
      | error e => exact ⟨[], fileId, e, rs, rfl, by simp⟩
      | fileResult r => simp [holdsError] at ha
      | cancelled => simp [holdsError] at ha
    · have hrest : ∃ r ∈ rs, holdsError r = true := by
        obtain ⟨r, hr, hre⟩ := h
        rcases List.mem_cons.mp hr with h1 | h1
        · subst h1; exact absurd hre ha
        · exact ⟨r, h1, hre⟩
      obtain ⟨before, fileId, e, after, heq, hb⟩ := ih hrest
      refine ⟨a :: before, fileId, e, after, by simp [heq], ?_⟩
      intro r hr
      rcases List.mem_cons.mp hr with h1 | h1
      · subst h1; simpa using ha
      · exact hb r h1

theorem forall₂_mem_right {α β : Type} {R : α → β → Prop} :
    ∀ {l₁ : List α} {l₂ : List β}, List.Forall₂ R l₁ l₂ → ∀ b ∈ l₂, ∃ a ∈ l₁, R a b := by
  intro l₁ l₂ h
  induction h with
  | nil => intro b hb; simp at hb
  | cons hab _ ih =>
    intro b hb
    rcases List.mem_cons.mp hb with h1 | h1
    · subst h1; exact ⟨_, List.mem_cons_self _ _, hab⟩
    · obtain ⟨a, ha, hr⟩ := ih b h1
      exact ⟨a, List.mem_cons_of_mem _ ha, hr⟩

theorem forall₂_map_eq {α β γ : Type} {R : α → β → Prop} (f : α → γ) (g : β → γ)
    (hfg : ∀ a b, R a b → g b = f a) :
    ∀ {l₁ : List α} {l₂ : List β}, List.Forall₂ R l₁ l₂ → l₂.map g = l₁.map f := by
  intro l₁ l₂ h
  induction h with
  | nil => rfl
  | cons hab _ ih => simp [hfg _ _ hab, ih]

/-! ## Claims on the completion handler of sendMessage -/

/-- C1: for a list of upload outcomes, each a success or a failure, the completion handler
of `sendMessage` ends and issues exactly one `updateMessage` for the message: the error
text update when some outcome is a failure, the file list update with the populated files
otherwise.  A protocol send is issued exactly when all outcomes are successes, then once,
and the update stands before it in the order of issue. -/
theorem completionHandler_one_decision (gen : Nat → Int) (k : Nat) (message : Message)
    (uploadResults : List UploadResult)
    (h : ∀ r ∈ uploadResults, (∃ fr, r.2 = .fileResult fr) ∨ ∃ e, r.2 = .error e) :
    ∃ effects k1, completionHandler gen k message uploadResults = .ok (effects, k1) ∧
      effects.countP Effect.isUpdate = 1 ∧
      ((∃ r ∈ uploadResults, ∃ e, r.2 = .error e) →
        ∃ text, effects = [.updateMessage message.id (.setErrorText text)]) ∧
      ((∀ r ∈ uploadResults, ∃ fr, r.2 = .fileResult fr) →
        ∃ m files, fileResultsMap uploadResults = .ok m ∧
          populateFiles gen m message.files k = .ok (files, k1) ∧
          effects = [.updateMessage message.id (.setFiles files),
                     .send { message with files := files }]) ∧
      (effects.countP Effect.isSend = 1 ↔ ∀ r ∈ uploadResults, ∃ fr, r.2 = .fileResult fr) ∧
      effects.countP Effect.isSend ≤ 1 ∧
      (∀ pre post sent, effects = pre ++ Effect.send sent :: post →
        (∃ t, Effect.updateMessage message.id t ∈ pre) ∧ ∀ x ∈ post, x.isUpdate = false) := by
  by_cases herr : ∃ r ∈ uploadResults, holdsError r = true
  · obtain ⟨before, fileId, e, after, heq, hb⟩ := split_at_first_error uploadResults herr
    have hrun := completionHandler_error gen k message before after fileId e hb
    rw [← heq] at hrun
    have hnot : ¬ ∀ r ∈ uploadResults, ∃ fr, r.2 = UploadOutcome.fileResult fr := by
      intro hall
      obtain ⟨fr, hfr⟩ := hall (fileId, .error e) (by rw [heq]; simp)
      cases hfr
    refine ⟨_, k, hrun, by simp [Effect.isUpdate], fun _ => ⟨_, rfl⟩,
      fun hall => absurd hall hnot, ?_, by simp [Effect.isSend], ?_⟩
    · constructor
      · intro hc; simp [Effect.isSend] at hc
      · intro hall; exact absurd hall hnot
    · intro pre post sent hsplit
      have hmem : Effect.send sent ∈
          [Effect.updateMessage message.id (.setErrorText (uploadFailedText e.description))] := by
        rw [hsplit]; simp
      simp at hmem
  · have hall : ∀ r ∈ uploadResults, ∃ fr, r.2 = UploadOutcome.fileResult fr := by
      intro r hr
      rcases h r hr with h1 | ⟨e, he⟩
      · exact h1
      · exact absurd ⟨r, hr, by simp [holdsError, he]⟩ herr
    have hok : uploadFailed uploadResults = false := by
      simp only [uploadFailed, List.any_eq_false]
      intro r hr
      obtain ⟨fr, hfr⟩ := hall r hr
      simp [notFileResult, hfr]
    obtain ⟨m, files, k1, hm, hf, hrun⟩ := completionHandler_success gen k message uploadResults hok
    refine ⟨_, k1, hrun, by simp [Effect.isUpdate], ?_, fun _ => ⟨m, files, hm, hf, rfl⟩,
      ?_, by simp [Effect.isSend], ?_⟩
    · rintro ⟨r, hr, e, he⟩
      obtain ⟨fr, hfr⟩ := hall r hr
      rw [he] at hfr
      cases hfr
    · constructor
      · intro _; exact hall
      · intro _; simp [Effect.isSend]
    · intro pre post sent hsplit
      cases pre with
      | nil => simp at hsplit
      | cons a pre =>
        cases pre with
        | nil =>
          simp only [List.cons_append, List.nil_append, List.cons.injEq] at hsplit
          obtain ⟨ha, -, hpost⟩ := hsplit
          refine ⟨⟨.setFiles files, by rw [← ha]; simp⟩, ?_⟩
          rw [← hpost]; simp
        | cons b pre =>
          have hlen := congrArg List.length hsplit
          simp at hlen

/-- Witness of C1: a batch of two files, the first uploaded and the second failed. -/
theorem completionHandler_one_decision_witness :
    ∃ effects k1,
      completionHandler (fun n => n) 0 ⟨"m1".toList, 0, .Pending, some 5, [], none⟩
        [(1, .fileResult ⟨⟨⟨none, none, []⟩, [], []⟩, []⟩), (2, .error ⟨"timeout".toList⟩)]
        = .ok (effects, k1) ∧
      effects.countP Effect.isUpdate = 1 ∧ effects.countP Effect.isSend ≤ 1 :=
  have h := completionHandler_one_decision (fun n => n) 0
    ⟨"m1".toList, 0, .Pending, some 5, [], none⟩
    [(1, .fileResult ⟨⟨⟨none, none, []⟩, [], []⟩, []⟩), (2, .error ⟨"timeout".toList⟩)]
    (by
      intro r hr
      simp only [List.mem_cons, List.mem_singleton, List.not_mem_nil, or_false] at hr
      rcases hr with rfl | rfl
      · exact Or.inl ⟨_, rfl⟩
      · exact Or.inr ⟨_, rfl⟩)
  h.elim fun effects h1 => h1.elim fun k1 h2 => ⟨effects, k1, h2.1, h2.2.1, h2.2.2.2.2.2.1⟩

/-- C2: when the list of upload outcomes holds a failure, the text persisted by the handler
is `Upload failed: ` followed by the description of the first failure of the list, whatever
stands after it.  The handler reads nothing but the list, so the order in which the
transfers ended plays no part.  For success, failure `e`, success the text is that of `e`;
for failure `e1`, success, failure `e2` it is that of `e1`. -/
theorem completionHandler_first_error_text (gen : Nat → Int) (k : Nat) (message : Message)
    (before after : List UploadResult) (fileId : Int) (e : QXmppError)
    (h : ∀ r ∈ before, holdsError r = false) :
    completionHandler gen k message (before ++ (fileId, .error e) :: after)
      = .ok ([.updateMessage message.id
                (.setErrorText ("Upload failed: ".toList ++ e.description))], k) ∧
    (∀ (a b c : Int) (s1 s2 : FileResult) (e0 : QXmppError),
      completionHandler gen k message
          [(a, .fileResult s1), (b, .error e0), (c, .fileResult s2)]
        = .ok ([.updateMessage message.id
                  (.setErrorText ("Upload failed: ".toList ++ e0.description))], k)) ∧
    (∀ (a b c : Int) (s : FileResult) (e1 e2 : QXmppError),
      completionHandler gen k message
          [(a, .error e1), (b, .fileResult s), (c, .error e2)]
        = .ok ([.updateMessage message.id
                  (.setErrorText ("Upload failed: ".toList ++ e1.description))], k)) := by
  refine ⟨completionHandler_error gen k message before after fileId e h, ?_, ?_⟩
  · intro a b c s1 s2 e0
    exact completionHandler_error gen k message [(a, .fileResult s1)] [(c, .fileResult s2)] b e0
      (by intro r hr; simp at hr; subst hr; rfl)
  · intro a b c s e1 e2
    exact completionHandler_error gen k message [] [(b, .fileResult s), (c, .error e2)] a e1
      (by intro r hr; simp at hr)

/-- Witness of C2: a cancelled upload, then the failure `quota`, then the failure `late`. -/
theorem completionHandler_first_error_text_witness :
    completionHandler (fun n => n) 0 ⟨"m1".toList, 0, .Pending, some 5, [], none⟩
        ([(1, .cancelled)] ++ (2, .error ⟨"quota".toList⟩) :: [(3, .error ⟨"late".toList⟩)])
      = .ok ([.updateMessage "m1".toList (.setErrorText "Upload failed: quota".toList)], 0) :=
  (completionHandler_first_error_text (fun n => n) 0
    ⟨"m1".toList, 0, .Pending, some 5, [], none⟩
    [(1, .cancelled)] [(3, .error ⟨"late".toList⟩)] 2 ⟨"quota".toList⟩
    (by intro r hr; simp at hr; subst hr; rfl)).1

/-- C3: when an upload of the batch failed, the handler issues the error text update and
nothing else, and the closure of that update changes the error text only: the file list
of the stored message, with every source, hash, thumbnail and local path, and every other
field are what they were, also when other uploads of the batch succeeded. -/
theorem failure_update_keeps_files (gen : Nat → Int) (k : Nat) (message : Message)
    (uploadResults : List UploadResult)
    (h : ∃ r ∈ uploadResults, ∃ e, r.2 = UploadOutcome.error e) :
    ∃ text, completionHandler gen k message uploadResults
        = .ok ([.updateMessage message.id (.setErrorText text)], k) ∧
      (∀ stored : Message,
        ((Transform.setErrorText text).apply stored).files = stored.files ∧
        ((Transform.setErrorText text).apply stored).id = stored.id ∧
        ((Transform.setErrorText text).apply stored).stamp = stored.stamp ∧
        ((Transform.setErrorText text).apply stored).deliveryState = stored.deliveryState ∧
        ((Transform.setErrorText text).apply stored).fileGroupId = stored.fileGroupId ∧
        ((Transform.setErrorText text).apply stored).errorText = some text) ∧
      ∀ store : List Message,
        (runUpdate message.id (.setErrorText text) store).map Message.files
          = store.map Message.files := by
  have herr : ∃ r ∈ uploadResults, holdsError r = true := by
    obtain ⟨r, hr, e, he⟩ := h
    exact ⟨r, hr, by simp [holdsError, he]⟩
  obtain ⟨before, fileId, e, after, heq, hb⟩ := split_at_first_error uploadResults herr
  have hrun := completionHandler_error gen k message before after fileId e hb
  rw [← heq] at hrun
  refine ⟨_, hrun, fun stored => ⟨rfl, rfl, rfl, rfl, rfl, rfl⟩, ?_⟩
  intro store
  simp only [runUpdate, List.map_map]
  apply List.map_congr_left
  intro m _
  simp only [Function.comp]
  split <;> rfl

/-- Witness of C3: the batch success, failure, success. -/
theorem failure_update_keeps_files_witness :
    ∃ text,
      completionHandler (fun n => n) 0 ⟨"m1".toList, 0, .Pending, some 5, [], none⟩
        [(1, .fileResult ⟨⟨⟨none, none, []⟩, [], []⟩, []⟩), (2, .error ⟨"timeout".toList⟩),
         (3, .fileResult ⟨⟨⟨none, none, []⟩, [], []⟩, []⟩)]
        = .ok ([.updateMessage "m1".toList (.setErrorText text)], 0) :=
  have h := failure_update_keeps_files (fun n => n) 0
    ⟨"m1".toList, 0, .Pending, some 5, [], none⟩
    [(1, .fileResult ⟨⟨⟨none, none, []⟩, [], []⟩, []⟩), (2, .error ⟨"timeout".toList⟩),
     (3, .fileResult ⟨⟨⟨none, none, []⟩, [], []⟩, []⟩)]
    ⟨(2, .error ⟨"timeout".toList⟩), by simp, ⟨"timeout".toList⟩, rfl⟩
  h.elim fun text ht => ⟨text, ht.1⟩

/-- C7: when all uploads succeeded and the results hold one result for each file id, in
any order, the files that the handler persists and sends have the ids of the message's
files in their order, and each of them carries the hashes of the result with its id, in
the provider's order and with its own id as owner; every plaintext source and every
encrypted source attached to it carries its id as well. -/
theorem plaintext_hash_ownership (gen : Nat → Int) (k : Nat) (message : Message)
    (uploadResults : List UploadResult)
    (hsucc : ∀ r ∈ uploadResults, ∃ fr, r.2 = UploadOutcome.fileResult fr)
    (huniq : (uploadResults.map Prod.fst).Nodup)
    (hcover : ∀ f ∈ message.files, f.id ∈ uploadResults.map Prod.fst) :
    ∃ files k1,
      completionHandler gen k message uploadResults
        = .ok ([.updateMessage message.id (.setFiles files),
                .send { message with files := files }], k1) ∧
      files.map File.id = message.files.map File.id ∧
      ∀ f1 ∈ files, ∃ fr, (f1.id, UploadOutcome.fileResult fr) ∈ uploadResults ∧
        f1.hashes
          = fr.fileShare.metadata.hashes.map (fun hash => ⟨f1.id, hash.algorithm, hash.hash⟩) ∧
        (∀ x ∈ f1.hashes, x.ownerId = f1.id) ∧
        f1.httpSources.map HttpSource.url
          = fr.fileShare.httpSources.map QXmppHttpFileSource.url ∧
        (∀ x ∈ f1.httpSources, x.fileId = f1.id) ∧
        f1.encryptedSources.length = fr.fileShare.encryptedSources.length ∧
        (∀ x ∈ f1.encryptedSources, x.fileId = f1.id) := by
  have hok : uploadFailed uploadResults = false := by
    simp only [uploadFailed, List.any_eq_false]
    intro r hr
    obtain ⟨fr, hfr⟩ := hsucc r hr
    simp [notFileResult, hfr]
  obtain ⟨m, files, k1, hm, hf, hrun⟩ :=
    completionHandler_success gen k message uploadResults hok
  obtain ⟨m2, hm2, hkeys, hmem⟩ := fileResultsMap_spec uploadResults hok
  rw [hm] at hm2
  injection hm2 with hm2
  subst hm2
  obtain ⟨files2, k2, hf2, hall⟩ := populateFiles_spec gen m message.files k
  rw [hf] at hf2
  injection hf2 with hf2
  injection hf2 with hf2 hk2
  subst hf2
  refine ⟨files, k1, hrun, ?_, ?_⟩
  · apply forall₂_map_eq File.id File.id _ hall
    rintro a b ⟨k0, k3, hab⟩
    obtain ⟨b2, k4, hb2, hid, -⟩ := populateFile_spec gen k0 m a
    rw [hab] at hb2
    injection hb2 with hb2
    injection hb2 with hb2 _
    rw [hb2]; exact hid
  · intro f1 hf1
    obtain ⟨f, hfmem, k0, k3, hab⟩ := forall₂_mem_right hall f1 hf1
    obtain ⟨b2, k4, hb2, hid, -, -, -, -, -, hsome⟩ := populateFile_spec gen k0 m f
    rw [hab] at hb2
    injection hb2 with hb2
    injection hb2 with hb2 _
    subst hb2
    have hin : f.id ∈ m.map Prod.fst := by rw [hkeys]; exact hcover f hfmem
    obtain ⟨⟨i, fr⟩, hpair, hi⟩ := List.mem_map.mp hin
    simp only at hi
    subst hi
    have hlook : lookupResult m f.id = some fr :=
      lookupResult_of_mem m f.id fr (by rw [hkeys]; exact huniq) hpair
    obtain ⟨hh, hs, he⟩ := hsome fr hlook
    refine ⟨fr, by rw [hid]; exact (hmem f.id fr).mp hpair, by rw [hh, hid], ?_, ?_, ?_, ?_, ?_⟩
    · intro x hx
      rw [hh] at hx
      obtain ⟨y, -, hy⟩ := List.mem_map.mp hx
      rw [← hy, hid]
    · rw [hs]; simp [List.map_map, Function.comp]
    · intro x hx
      rw [hs] at hx
      obtain ⟨y, -, hy⟩ := List.mem_map.mp hx
      rw [← hy, hid]
    · exact (List.Forall₂.length_eq he).symm
    · intro x hx
      obtain ⟨y, -, k5, k6, hy⟩ := forall₂_mem_right he x hx
      rw [mkEncryptedSource_eq] at hy
      injection hy with hy
      injection hy with hy _
      rw [← hy, hid]

/-- Witness of C7: two files with the ids 1 and 2, the results arriving as 2 then 1. -/
theorem plaintext_hash_ownership_witness :
    ∃ files k1,
      completionHandler (fun n => 100 + n) 0
          ⟨"m1".toList, 0, .Pending, some 5,
            [⟨1, 5, "a".toList, "/tmp/a".toList, [], none, [], [], []⟩,
             ⟨2, 5, "b".toList, "/tmp/b".toList, [], none, [], [], []⟩], none⟩
          [(2, .fileResult ⟨⟨⟨none, none, [⟨1, [22]⟩]⟩, [⟨"u2".toList⟩], []⟩, []⟩),
           (1, .fileResult ⟨⟨⟨none, none, [⟨1, [11]⟩]⟩, [⟨"u1".toList⟩], []⟩, []⟩)]
        = .ok ([.updateMessage "m1".toList (.setFiles files),
                .send ⟨"m1".toList, 0, .Pending, some 5, files, none⟩], k1) ∧
      files.map File.id = [1, 2] :=
  have h := plaintext_hash_ownership (fun n => 100 + n) 0
    ⟨"m1".toList, 0, .Pending, some 5,
      [⟨1, 5, "a".toList, "/tmp/a".toList, [], none, [], [], []⟩,
       ⟨2, 5, "b".toList, "/tmp/b".toList, [], none, [], [], []⟩], none⟩
    [(2, .fileResult ⟨⟨⟨none, none, [⟨1, [22]⟩]⟩, [⟨"u2".toList⟩], []⟩, []⟩),
     (1, .fileResult ⟨⟨⟨none, none, [⟨1, [11]⟩]⟩, [⟨"u1".toList⟩], []⟩, []⟩)]
    (by
      intro r hr
      simp only [List.mem_cons, List.mem_singleton, List.not_mem_nil, or_false] at hr
      rcases hr with rfl | rfl <;> exact ⟨_, rfl⟩)
    (by decide)
    (by
      intro f hf
      simp only [List.mem_cons, List.mem_singleton, List.not_mem_nil, or_false] at hf
      rcases hf with rfl | rfl <;> simp)
  h.elim fun files h1 => h1.elim fun k1 h2 => ⟨files, k1, h2.1, h2.2.1⟩

/-- C8: for a file whose result the map holds, the loop body ends, and every encrypted
source it builds, one for each source of the provider and in its order, has an
`encryptedDataId` exactly when the provider gave a hash of the ciphertext; each of its
hashes has that id as owner, and its hashes are the provider's in number, order, algorithm
and digest.  No read of the id is made while it is empty. -/
theorem ciphertext_hash_ownership (gen : Nat → Int) (k : Nat) (m : List (Int × FileResult))
    (file : File) (r : FileResult) (h : lookupResult m file.id = some r) :
    ∃ file1 k1, populateFile gen k m file = .ok (file1, k1) ∧
      List.Forall₂
        (fun s b =>
          (b.encryptedDataId.isSome = true ↔ s.hashes ≠ []) ∧
          (∀ x ∈ b.hashes, b.encryptedDataId = some x.ownerId) ∧
          b.hashes.length = s.hashes.length ∧
          b.hashes.map (fun x => (x.algorithm, x.digest))
            = s.hashes.map (fun x => (x.algorithm, x.hash)))
        r.fileShare.encryptedSources file1.encryptedSources := by
  obtain ⟨file1, k1, hrun, -, -, -, -, -, -, hsome⟩ := populateFile_spec gen k m file
  obtain ⟨-, -, he⟩ := hsome r h
  refine ⟨file1, k1, hrun, List.Forall₂.imp ?_ he⟩
  rintro s b ⟨k0, k2, hb⟩
  rw [mkEncryptedSource_eq] at hb
  injection hb with hb
  injection hb with hb _
  subst hb
  cases hh : s.hashes with
  | nil => simp
  | cons x xs =>
    refine ⟨by simp, ?_, by simp, by simp [List.map_map, Function.comp]⟩
    intro y hy
    simp only [List.isEmpty_cons, Bool.false_eq_true, if_false]
    obtain ⟨z, -, hz⟩ := List.mem_map.mp hy
    rw [← hz]

/-- Witness of C8: a file with two encrypted sources, the first with a hash of the
ciphertext and the second without. -/
theorem ciphertext_hash_ownership_witness :
    ∃ file1 k1,
      populateFile (fun n => 100 + n) 0
          [(1, ⟨⟨⟨none, none, []⟩, [], [⟨0, [1], [2], [⟨1, [33]⟩], []⟩, ⟨0, [3], [4], [], []⟩]⟩,
            []⟩)]
          ⟨1, 5, "a".toList, "/tmp/a".toList, [], none, [], [], []⟩
        = .ok (file1, k1) ∧
      file1.encryptedSources.length = 2 :=
  have h := ciphertext_hash_ownership (fun n => 100 + n) 0
    [(1, ⟨⟨⟨none, none, []⟩, [], [⟨0, [1], [2], [⟨1, [33]⟩], []⟩, ⟨0, [3], [4], [], []⟩]⟩, []⟩)]
    ⟨1, 5, "a".toList, "/tmp/a".toList, [], none, [], [], []⟩ _ rfl
  h.elim fun file1 h1 => h1.elim fun k1 h2 =>
    ⟨file1, k1, h2.1, (List.Forall₂.length_eq h2.2).symm⟩

/-! ## Claims on deleteFile and on the destination of downloadFile -/

/-- The record update of `deleteFile` is issued first and in every case; the file is removed
from disk exactly when `downloadsFolder` is a leading part of its path as a string. -/
theorem deleteFile_effects (p : Platform) (downloadLocation appName messageId : QString)
    (file : File) :
    deleteFile p downloadLocation appName messageId file =
      if (downloadsFolder p downloadLocation appName).isPrefixOf file.localFilePath then
        [.updateMessage messageId (.clearLocalFilePath file.id),
         .removeFile file.localFilePath]
      else [.updateMessage messageId (.clearLocalFilePath file.id)] := by
  unfold deleteFile
  split <;> rfl

/-- A file inside the managed directory, `dirPath` of `downloadFile` followed by a name,
is removed from disk. -/
theorem deleteFile_removes_inside (p : Platform)
    (downloadLocation appName messageId rest : QString) (file : File)
    (h : file.localFilePath = downloadDirPath p downloadLocation appName ++ rest) :
    deleteFile p downloadLocation appName messageId file =
      [.updateMessage messageId (.clearLocalFilePath file.id),
       .removeFile file.localFilePath] := by
  have hpre : (downloadsFolder p downloadLocation appName).isPrefixOf file.localFilePath
      = true := by
    rw [List.isPrefixOf_iff_prefix, h]
    exact ⟨[separator p] ++ rest, by simp [downloadsFolder, downloadDirPath]⟩
  rw [deleteFile_effects, if_pos hpre]

/-- C9, at the failing input: with the downloads in `/home/user/Downloads` and the
application name `Kaidan`, the managed directory is `/home/user/Downloads/Kaidan/`.  The
file `/home/user/Downloads/KaidanBackup/photo.png` is not in it, and `deleteFile` removes
it from disk all the same, since its path begins with `/home/user/Downloads/Kaidan`. -/
theorem deleteFile_removes_sibling_directory_file :
    (downloadDirPath .unix "/home/user/Downloads".toList "Kaidan".toList).isPrefixOf
        "/home/user/Downloads/KaidanBackup/photo.png".toList = false ∧
    deleteFile .unix "/home/user/Downloads".toList "Kaidan".toList "m1".toList
        ⟨7, 5, "photo.png".toList, "/home/user/Downloads/KaidanBackup/photo.png".toList,
          [], none, [], [], []⟩
      = [.updateMessage "m1".toList (.clearLocalFilePath 7),
         .removeFile "/home/user/Downloads/KaidanBackup/photo.png".toList] ∧
    diskAfter
        (deleteFile .unix "/home/user/Downloads".toList "Kaidan".toList "m1".toList
          ⟨7, 5, "photo.png".toList, "/home/user/Downloads/KaidanBackup/photo.png".toList,
            [], none, [], [], []⟩)
        ["/home/user/Downloads/KaidanBackup/photo.png".toList]
      = [] := by
  decide

/-- C10, at the failing input: the third download of a file declared as `report.pdf`.
The managed directory holds `report.pdf` and `report (1).pdf` from the two downloads
before.  The candidate path exists, the name suggested is `report (1)`, because no file
`report (1)` without extension exists, and the path opened for writing is that of the
second download, which exists. -/
theorem downloadFile_third_download_reuses_path :
    candidatePath
        ⟨.unix,
          existsOn ["/home/user/Downloads/Kaidan/report.pdf".toList,
                    "/home/user/Downloads/Kaidan/report (1).pdf".toList],
          fun _ => [], "/home/user/Downloads".toList, "Kaidan".toList,
          "Fri Oct 30 09:11:00 2026".toList⟩
        ⟨⟨some "report.pdf".toList, some ⟨"pdf".toList⟩, []⟩, [], []⟩
      = .ok "/home/user/Downloads/Kaidan//report.pdf".toList ∧
    existsOn ["/home/user/Downloads/Kaidan/report.pdf".toList,
              "/home/user/Downloads/Kaidan/report (1).pdf".toList]
        "/home/user/Downloads/Kaidan//report.pdf".toList = true ∧
    downloadFilePath 8
        ⟨.unix,
          existsOn ["/home/user/Downloads/Kaidan/report.pdf".toList,
                    "/home/user/Downloads/Kaidan/report (1).pdf".toList],
          fun _ => [], "/home/user/Downloads".toList, "Kaidan".toList,
          "Fri Oct 30 09:11:00 2026".toList⟩
        ⟨⟨some "report.pdf".toList, some ⟨"pdf".toList⟩, []⟩, [], []⟩
      = .ok "/home/user/Downloads/Kaidan//report (1).pdf".toList ∧
    existsOn ["/home/user/Downloads/Kaidan/report.pdf".toList,
              "/home/user/Downloads/Kaidan/report (1).pdf".toList]
        "/home/user/Downloads/Kaidan//report (1).pdf".toList = true :=
  ⟨rfl, by decide, rfl, by decide⟩

/-! ## The closures on the local path -/

theorem setPathOf_no_match (fileId : Int) (filePath : QString) (files : List File)
    (h : ∀ f ∈ files, f.id ≠ fileId) : setPathOf fileId filePath files = files := by
  induction files with
  | nil => rfl
  | cons a rest ih =>
    have ha : a.id ≠ fileId := h a (List.mem_cons_self _ _)
    have hrest := ih (fun f hf => h f (List.mem_cons_of_mem _ hf))
    unfold setPathOf at hrest ⊢
    simp [modifyFirst, ha, hrest]

theorem setPathOf_first_match (fileId : Int) (filePath : QString) (pre post : List File)
    (f : File) (hpre : ∀ g ∈ pre, g.id ≠ fileId) (hf : f.id = fileId) :
    setPathOf fileId filePath (pre ++ f :: post)
      = pre ++ { f with localFilePath := filePath } :: post := by
  induction pre with
  | nil =>
    unfold setPathOf
    simp [modifyFirst, hf]
  | cons a rest ih =>
    have ha : a.id ≠ fileId := hpre a (List.mem_cons_self _ _)
    have hrest := ih (fun g hg => hpre g (List.mem_cons_of_mem _ hg))
    unfold setPathOf at hrest ⊢
    simp [modifyFirst, ha, hrest]

theorem setPathOf_ids (fileId : Int) (filePath : QString) (files : List File) :
    (setPathOf fileId filePath files).map File.id = files.map File.id ∧
    (setPathOf fileId filePath files).length = files.length := by
  induction files with
  | nil => exact ⟨rfl, rfl⟩
  | cons a rest ih =>
    unfold setPathOf at ih ⊢
    by_cases ha : a.id = fileId
    · simp [modifyFirst, ha]
    · simp [modifyFirst, ha, ih.1, ih.2]

/-- A list of files either has no file with the id or splits at the first one. -/
theorem split_at_first_id (fileId : Int) (files : List File) :
    (∀ f ∈ files, f.id ≠ fileId) ∨
    ∃ pre f post, files = pre ++ f :: post ∧ (∀ g ∈ pre, g.id ≠ fileId) ∧ f.id = fileId := by
  induction files with
  | nil => exact Or.inl (by simp)
  | cons a rest ih =>
    by_cases ha : a.id = fileId
    · exact Or.inr ⟨[], a, rest, rfl, by simp, ha⟩
    · rcases ih with h | ⟨pre, f, post, heq, hpre, hf⟩
      · left
        intro f hf
        rcases List.mem_cons.mp hf with h1 | h1
        · subst h1; exact ha
        · exact h f h1
      · right
        refine ⟨a :: pre, f, post, by simp [heq], ?_, hf⟩
        intro g hg
        rcases List.mem_cons.mp hg with h1 | h1
        · subst h1; exact ha
        · exact hpre g h1

/-! ## Claims on the completion of downloadFile and on the record update of deleteFile -/

/-- C11: when the download ends, a persisted update is issued exactly when the outcome is
a download, and then once; its closure gives the path opened for writing to the first file
of the stored message with the id of the downloaded file, leaves the other files and all
other fields as they are, and changes nothing when no file has that id.  On an error no
update is issued and one notification `Couldn't download file: ` with the description of
the error is raised.  The path in the closure is the one `downloadFile` opened. -/
theorem downloadFinished_one_update (messageId : QString) (fileId : Int) (filePath : QString)
    (result : DownloadOutcome) :
    ((downloadFinished messageId fileId filePath result).countP Effect.isUpdate = 1
        ↔ result = .downloaded) ∧
    (downloadFinished messageId fileId filePath result).countP Effect.isUpdate ≤ 1 ∧
    (result = .downloaded →
      downloadFinished messageId fileId filePath result
        = [.updateMessage messageId (.setLocalFilePath fileId filePath),
           .reportProgress fileId none]) ∧
    (∀ e, result = .error e →
      downloadFinished messageId fileId filePath result
        = [.passiveNotification ("Couldn't download file: ".toList ++ e.description),
           .reportProgress fileId none]) ∧
    (∀ stored : Message,
      ((Transform.setLocalFilePath fileId filePath).apply stored).id = stored.id ∧
      ((Transform.setLocalFilePath fileId filePath).apply stored).stamp = stored.stamp ∧
      ((Transform.setLocalFilePath fileId filePath).apply stored).deliveryState
        = stored.deliveryState ∧
      ((Transform.setLocalFilePath fileId filePath).apply stored).fileGroupId
        = stored.fileGroupId ∧
      ((Transform.setLocalFilePath fileId filePath).apply stored).errorText
        = stored.errorText ∧
      ((∀ f ∈ stored.files, f.id ≠ fileId) →
        (Transform.setLocalFilePath fileId filePath).apply stored = stored) ∧
      (∀ pre f post, stored.files = pre ++ f :: post → (∀ g ∈ pre, g.id ≠ fileId) →
        f.id = fileId →
        ((Transform.setLocalFilePath fileId filePath).apply stored).files
          = pre ++ { f with localFilePath := filePath } :: post)) ∧
    (∀ (fuel : Nat) (env : DownloadEnv) (canOpen : QString → Bool)
        (fileShare : QXmppFileShare) (readings : List TransferReading),
      downloadFilePath fuel env fileShare = .ok filePath → canOpen filePath = true →
      downloadFile fuel env canOpen messageId fileId fileShare readings result
        = .ok (progressChanged fileId readings
                ++ downloadFinished messageId fileId filePath result) ∧
      (progressChanged fileId readings).countP Effect.isUpdate = 0) := by
  refine ⟨?_, ?_, ?_, ?_, ?_, ?_⟩
  · cases result <;> simp [downloadFinished, Effect.isUpdate]
  · cases result <;> simp [downloadFinished, Effect.isUpdate]
  · intro h; subst h; rfl
  · intro e h; subst h; rfl
  · intro stored
    refine ⟨rfl, rfl, rfl, rfl, rfl, ?_, ?_⟩
    · intro h
      simp only [Transform.apply, setPathOf_no_match fileId filePath stored.files h]
    · intro pre f post heq hpre hf
      simp only [Transform.apply, heq, setPathOf_first_match fileId filePath pre post f hpre hf]
  · intro fuel env canOpen fileShare readings hpath hopen
    refine ⟨by simp [downloadFile, hpath, hopen], ?_⟩
    rw [List.countP_eq_zero]
    intro x hx
    obtain ⟨r, -, hr⟩ := List.mem_map.mp hx
    rw [← hr]
    simp [Effect.isUpdate]

/-- Witness of C11: a stored message with the files 1 and 2, the file 2 downloaded. -/
theorem downloadFinished_one_update_witness :
    ((Transform.setLocalFilePath 2 "/d/b.png".toList).apply
        ⟨"m1".toList, 0, .Delivered, some 5,
          [⟨1, 5, "a".toList, [], [], none, [], [], []⟩,
           ⟨2, 5, "b".toList, [], [], none, [], [], []⟩], none⟩).files
      = [⟨1, 5, "a".toList, [], [], none, [], [], []⟩]
          ++ ⟨2, 5, "b".toList, "/d/b.png".toList, [], none, [], [], []⟩ :: [] :=
  (downloadFinished_one_update "m1".toList 2 "/d/b.png".toList .downloaded).2.2.2.2.1
    ⟨"m1".toList, 0, .Delivered, some 5,
      [⟨1, 5, "a".toList, [], [], none, [], [], []⟩,
       ⟨2, 5, "b".toList, [], [], none, [], [], []⟩], none⟩
    |>.2.2.2.2.2.2 [⟨1, 5, "a".toList, [], [], none, [], [], []⟩]
      ⟨2, 5, "b".toList, [], [], none, [], [], []⟩ [] rfl (by decide) rfl

/-- C12: `deleteFile` issues its record update first and in every case, whether or not the
path of the file lies in the managed directory, and issues one.  The closure of the update
empties the local path of the first file of the stored message with the id of the file,
removes no file (number, order and ids of the files stay), leaves the other files and all
other fields as they are, and changes nothing when no file has that id. -/
theorem deleteFile_record_update (p : Platform)
    (downloadLocation appName messageId : QString) (file : File) :
    (∃ rest, deleteFile p downloadLocation appName messageId file
        = .updateMessage messageId (.clearLocalFilePath file.id) :: rest ∧
      rest.countP Effect.isUpdate = 0) ∧
    (∀ stored : Message,
      ((Transform.clearLocalFilePath file.id).apply stored).files.map File.id
        = stored.files.map File.id ∧
      ((Transform.clearLocalFilePath file.id).apply stored).files.length
        = stored.files.length ∧
      ((Transform.clearLocalFilePath file.id).apply stored).id = stored.id ∧
      ((Transform.clearLocalFilePath file.id).apply stored).stamp = stored.stamp ∧
      ((Transform.clearLocalFilePath file.id).apply stored).deliveryState
        = stored.deliveryState ∧
      ((Transform.clearLocalFilePath file.id).apply stored).fileGroupId
        = stored.fileGroupId ∧
      ((Transform.clearLocalFilePath file.id).apply stored).errorText = stored.errorText ∧
      ((∀ f ∈ stored.files, f.id ≠ file.id) →
        (Transform.clearLocalFilePath file.id).apply stored = stored) ∧
      (∀ pre f post, stored.files = pre ++ f :: post → (∀ g ∈ pre, g.id ≠ file.id) →
        f.id = file.id →
        ((Transform.clearLocalFilePath file.id).apply stored).files
          = pre ++ { f with localFilePath := [] } :: post)) := by
  refine ⟨?_, ?_⟩
  · rw [deleteFile_effects]
    split
    · exact ⟨_, rfl, by simp [Effect.isUpdate]⟩
    · exact ⟨_, rfl, by simp⟩
  · intro stored
    refine ⟨(setPathOf_ids file.id [] stored.files).1, (setPathOf_ids file.id [] stored.files).2,
      rfl, rfl, rfl, rfl, rfl, ?_, ?_⟩
    · intro h
      simp only [Transform.apply, setPathOf_no_match file.id [] stored.files h]
    · intro pre f post heq hpre hf
      simp only [Transform.apply, heq, setPathOf_first_match file.id [] pre post f hpre hf]

/-- Witness of C12: the file 2 of a stored message with the files 1 and 2 is deleted. -/
theorem deleteFile_record_update_witness :
    ((Transform.clearLocalFilePath 2).apply
        ⟨"m1".toList, 0, .Delivered, some 5,
          [⟨1, 5, "a".toList, "/x/a".toList, [], none, [], [], []⟩,
           ⟨2, 5, "b".toList, "/x/b".toList, [], none, [], [], []⟩], none⟩).files
      = [⟨1, 5, "a".toList, "/x/a".toList, [], none, [], [], []⟩]
          ++ ⟨2, 5, "b".toList, [], [], none, [], [], []⟩ :: [] :=
  (deleteFile_record_update .unix "/home/user/Downloads".toList "Kaidan".toList "m1".toList
      ⟨2, 5, "b".toList, "/x/b".toList, [], none, [], [], []⟩).2
    ⟨"m1".toList, 0, .Delivered, some 5,
      [⟨1, 5, "a".toList, "/x/a".toList, [], none, [], [], []⟩,
       ⟨2, 5, "b".toList, "/x/b".toList, [], none, [], [], []⟩], none⟩
    |>.2.2.2.2.2.2.2.2 [⟨1, 5, "a".toList, "/x/a".toList, [], none, [], [], []⟩]
      ⟨2, 5, "b".toList, "/x/b".toList, [], none, [], [], []⟩ [] rfl (by decide) rfl

/-! ## The assignment step of sendMessage -/

/-- The loop over the files makes one call of the generator for each file, in order, and
gives every file the group id. -/
theorem assignFiles_spec (p : Platform) (gen : Nat → Int) (fileGroupId : Int)
    (files : List File) :
    ∀ k, (assignFiles p gen fileGroupId files k).2 = k + files.length ∧
      (assignFiles p gen fileGroupId files k).1.length = files.length ∧
      (assignFiles p gen fileGroupId files k).1.map File.id
        = (List.range' k files.length).map gen ∧
      ∀ f ∈ (assignFiles p gen fileGroupId files k).1, f.fileGroupId = fileGroupId := by
  induction files with
  | nil => intro k; simp [assignFiles]
  | cons a rest ih =>
    intro k
    obtain ⟨h1, h2, h3, h4⟩ := ih (k + 1)
    refine ⟨?_, ?_, ?_, ?_⟩
    · simp only [assignFiles, h1, List.length_cons]; omega
    · simp only [assignFiles, h2, List.length_cons]
    · simp only [assignFiles, List.map_cons, h3, List.length_cons, List.range'_succ]
    · intro f hf
      simp only [assignFiles, List.mem_cons] at hf
      rcases hf with hf | hf
      · rw [hf]
      · exact h4 f hf

/-- The value of `prepareMessage` for a message with a file. -/
theorem prepareMessage_eq (env : SendEnv) (gen : Nat → Int) (k : Nat) (message : Message)
    (hN : message.files ≠ []) :
    prepareMessage env gen k message =
      .ok ({ message with
              id := env.stanzaUuid
              stamp := env.currentDateTimeUtc
              deliveryState := .Pending
              fileGroupId := some (message.fileGroupId.getD (gen k))
              files := (assignFiles env.platform gen (message.fileGroupId.getD (gen k))
                message.files (if message.fileGroupId.isSome then k else k + 1)).1 },
           (if message.fileGroupId.isSome then k else k + 1) + message.files.length) := by
  have hne : message.files.isEmpty = false := by
    cases hf : message.files with
    | nil => exact absurd hf hN
    | cons a l => rfl
  unfold prepareMessage
  rw [hne]
  cases hg : message.fileGroupId with
  | none =>
    simp [(assignFiles_spec env.platform gen (gen k) message.files (k + 1)).1]
  | some g =>
    simp [(assignFiles_spec env.platform gen g message.files k).1]

/-- The value of `sendMessageStart` for a message with a file. -/
theorem sendMessageStart_eq (env : SendEnv) (gen : Nat → Int) (k : Nat) (message : Message)
    (hN : message.files ≠ []) :
    sendMessageStart env gen k message =
      .ok ([.addMessage { message with
              id := env.stanzaUuid
              stamp := env.currentDateTimeUtc
              deliveryState := .Pending
              fileGroupId := some (message.fileGroupId.getD (gen k))
              files := (assignFiles env.platform gen (message.fileGroupId.getD (gen k))
                message.files (if message.fileGroupId.isSome then k else k + 1)).1 }],
           { message with
              id := env.stanzaUuid
              stamp := env.currentDateTimeUtc
              deliveryState := .Pending
              fileGroupId := some (message.fileGroupId.getD (gen k))
              files := (assignFiles env.platform gen (message.fileGroupId.getD (gen k))
                message.files (if message.fileGroupId.isSome then k else k + 1)).1 },
           (if message.fileGroupId.isSome then k else k + 1) + message.files.length) := by
  simp only [sendMessageStart, prepareMessage_eq env gen k message hN]

/-! ## Claims on the assignment step of sendMessage -/

/-- C13: for a message with at least one file, the assignment step of `sendMessage` ends,
and in the message it hands to `addMessage` every file has the group id of the message.  A
group id that the incoming message carries is kept, with no call of the generator for it;
when the message carries none, the group id is the value of one call of the generator. -/
theorem sendMessage_shared_fileGroupId (env : SendEnv) (gen : Nat → Int) (k : Nat)
    (message : Message) (hN : 1 ≤ message.files.length) :
    ∃ prepared k1,
      sendMessageStart env gen k message = .ok ([.addMessage prepared], prepared, k1) ∧
      prepared.files.length = message.files.length ∧
      (∀ f ∈ prepared.files, some f.fileGroupId = prepared.fileGroupId) ∧
      (∀ g, message.fileGroupId = some g →
        prepared.fileGroupId = some g ∧ k1 = k + message.files.length) ∧
      (message.fileGroupId = none →
        prepared.fileGroupId = some (gen k) ∧ k1 = k + 1 + message.files.length) := by
  have hne : message.files ≠ [] := by
    intro h; rw [h] at hN; simp at hN
  refine ⟨_, _, sendMessageStart_eq env gen k message hne, ?_, ?_, ?_, ?_⟩
  · exact (assignFiles_spec _ _ _ _ _).2.1
  · intro f hf
    rw [(assignFiles_spec _ _ _ _ _).2.2.2 f hf]
  · intro g hg
    simp [hg]
  · intro hg
    simp [hg]

/-- Witness of C13: a message with two files and no group id. -/
theorem sendMessage_shared_fileGroupId_witness :
    ∃ prepared k1,
      sendMessageStart ⟨.unix, "uuid-1".toList, 1000⟩ (fun n => 100 + n) 0
          ⟨[], 0, .Draft, none,
            [⟨0, 0, [], "/tmp/a.png".toList, [], none, [], [], []⟩,
             ⟨0, 0, [], "/tmp/b.png".toList, [], none, [], [], []⟩], none⟩
        = .ok ([.addMessage prepared], prepared, k1) ∧
      (∀ f ∈ prepared.files, some f.fileGroupId = prepared.fileGroupId) :=
  have h := sendMessage_shared_fileGroupId ⟨.unix, "uuid-1".toList, 1000⟩ (fun n => 100 + n) 0
    ⟨[], 0, .Draft, none,
      [⟨0, 0, [], "/tmp/a.png".toList, [], none, [], [], []⟩,
       ⟨0, 0, [], "/tmp/b.png".toList, [], none, [], [], []⟩], none⟩ (by decide)
  h.elim fun prepared h1 => h1.elim fun k1 h2 => ⟨prepared, k1, h2.1, h2.2.2.1⟩

/-- C14 as stated fails: with a generator that returns 7 at every call, the two files of
a message get the same id. -/
theorem sendMessage_ids_collide :
    ∃ prepared k1,
      prepareMessage ⟨.unix, "uuid-1".toList, 1000⟩ (fun _ => 7) 0
          ⟨[], 0, .Draft, none,
            [⟨0, 0, [], "/tmp/a.png".toList, [], none, [], [], []⟩,
             ⟨0, 0, [], "/tmp/b.png".toList, [], none, [], [], []⟩], none⟩
        = .ok (prepared, k1) ∧
      prepared.files.map File.id = [7, 7] ∧
      ¬ (prepared.files.map File.id).Nodup :=
  ⟨_, _, rfl, rfl, by decide⟩

/-- C14, amended: when the values that the generator returns are pairwise distinct, the
files of a message with at least one file get pairwise distinct ids, and the group id
generated for the message differs from the group id generated for any message prepared
later in the process. -/
theorem sendMessage_ids_distinct (env : SendEnv) (gen : Nat → Int) (k : Nat)
    (message : Message) (hN : 1 ≤ message.files.length) (hinj : Function.Injective gen) :
    ∃ prepared k1, prepareMessage env gen k message = .ok (prepared, k1) ∧
      (prepared.files.map File.id).Nodup ∧
      (message.fileGroupId = none →
        ∀ (env2 : SendEnv) (k2 : Nat) (message2 prepared2 : Message) (k3 : Nat),
          k1 ≤ k2 → message2.fileGroupId = none →
          prepareMessage env2 gen k2 message2 = .ok (prepared2, k3) →
          prepared2.fileGroupId ≠ prepared.fileGroupId) := by
  have hne : message.files ≠ [] := by
    intro h; rw [h] at hN; simp at hN
  refine ⟨_, _, prepareMessage_eq env gen k message hne, ?_, ?_⟩
  · simp only [(assignFiles_spec _ _ _ _ _).2.2.1]
    exact List.Nodup.map hinj (List.nodup_range' _ _)
  · intro hg env2 k2 message2 prepared2 k3 hk hg2 hp2
    have hne2 : message2.files ≠ [] := by
      intro h
      simp [prepareMessage, h] at hp2
    rw [prepareMessage_eq env2 gen k2 message2 hne2] at hp2
    injection hp2 with hp2
    injection hp2 with hp2 _
    rw [← hp2]
    simp only [hg, hg2, Option.getD_none, Option.isSome_none, Bool.false_eq_true, if_false] at hk ⊢
    intro heq
    injection heq with heq
    have := hinj heq
    omega

/-- Witness of C14, amended: the generator that returns the number of the call. -/
theorem sendMessage_ids_distinct_witness :
    ∃ prepared k1,
      prepareMessage ⟨.unix, "uuid-1".toList, 1000⟩ (fun n => (n : Int)) 0
          ⟨[], 0, .Draft, none,
            [⟨0, 0, [], "/tmp/a.png".toList, [], none, [], [], []⟩,
             ⟨0, 0, [], "/tmp/b.png".toList, [], none, [], [], []⟩], none⟩
        = .ok (prepared, k1) ∧
      (prepared.files.map File.id).Nodup :=
  have h := sendMessage_ids_distinct ⟨.unix, "uuid-1".toList, 1000⟩ (fun n => (n : Int)) 0
    ⟨[], 0, .Draft, none,
      [⟨0, 0, [], "/tmp/a.png".toList, [], none, [], [], []⟩,
       ⟨0, 0, [], "/tmp/b.png".toList, [], none, [], [], []⟩], none⟩ (by decide)
    (fun a b hab => Int.ofNat.inj hab)
  h.elim fun prepared h1 => h1.elim fun k1 h2 => ⟨prepared, k1, h2.1, h2.2.1⟩

/-- C17 as stated fails: an incoming message with the id `draft-7` and the state `Draft`
is handed to `addMessage` with the generated id and the state `Pending`. -/
theorem sendMessage_overwrites_id_and_state :
    ∃ prepared k1,
      sendMessageStart ⟨.unix, "uuid-1".toList, 1000⟩ (fun n => 100 + n) 0
          ⟨"draft-7".toList, 5, .Draft, none,
            [⟨0, 0, [], "/tmp/a.png".toList, [], none, [], [], []⟩], none⟩
        = .ok ([.addMessage prepared], prepared, k1) ∧
      prepared.id = "uuid-1".toList ∧ prepared.id ≠ "draft-7".toList ∧
      prepared.stamp = 1000 ∧
      prepared.deliveryState = .Pending ∧ prepared.deliveryState ≠ .Draft :=
  ⟨_, _, rfl, rfl, by decide, rfl, rfl, by decide⟩

/-- C17, amended: for a message with at least one file, `sendMessage` assigns the id, the
time stamp and the state `Pending` in every case: the message handed to `addMessage` has
the generated id, the current time and `Pending`, whatever the incoming message carried
in these fields.  The error text is the incoming one. -/
theorem sendMessage_assigns_unconditionally (env : SendEnv) (gen : Nat → Int) (k : Nat)
    (message : Message) (hN : 1 ≤ message.files.length) :
    ∃ prepared k1,
      sendMessageStart env gen k message = .ok ([.addMessage prepared], prepared, k1) ∧
      prepared.id = env.stanzaUuid ∧
      prepared.stamp = env.currentDateTimeUtc ∧
      prepared.deliveryState = .Pending ∧
      prepared.errorText = message.errorText := by
  have hne : message.files ≠ [] := by
    intro h; rw [h] at hN; simp at hN
  exact ⟨_, _, sendMessageStart_eq env gen k message hne, rfl, rfl, rfl, rfl⟩

/-- Witness of C17, amended: the message with the id `draft-7` and the state `Draft`. -/
theorem sendMessage_assigns_unconditionally_witness :
    ∃ prepared k1,
      sendMessageStart ⟨.unix, "uuid-1".toList, 1000⟩ (fun n => 100 + n) 0
          ⟨"draft-7".toList, 5, .Draft, none,
            [⟨0, 0, [], "/tmp/a.png".toList, [], none, [], [], []⟩], none⟩
        = .ok ([.addMessage prepared], prepared, k1) ∧
      prepared.id = "uuid-1".toList ∧ prepared.deliveryState = .Pending :=
  have h := sendMessage_assigns_unconditionally ⟨.unix, "uuid-1".toList, 1000⟩
    (fun n => 100 + n) 0
    ⟨"draft-7".toList, 5, .Draft, none,
      [⟨0, 0, [], "/tmp/a.png".toList, [], none, [], [], []⟩], none⟩ (by decide)
  h.elim fun prepared h1 => h1.elim fun k1 h2 => ⟨prepared, k1, h2.1, h2.2.1, h2.2.2.2.1⟩

/-! ## Progress of the transfer tasks -/

theorem progressAfter_append (fileId : Int) (a b : List Effect) :
    ∀ current, progressAfter fileId (a ++ b) current
      = progressAfter fileId b (progressAfter fileId a current) := by
  induction a with
  | nil => intro current; rfl
  | cons x rest ih =>
    intro current
    cases x <;> simp [progressAfter, ih]

theorem publishedAfterRetirement_samples (fileId : Int) (readings : List TransferReading)
    (tail : List Effect) :
    publishedAfterRetirement fileId (progressChanged fileId readings ++ tail)
      = publishedAfterRetirement fileId tail := by
  induction readings with
  | nil => rfl
  | cons r rest ih =>
    unfold progressChanged at ih ⊢
    simp [publishedAfterRetirement, Effect.isRetirementOf, ih]

theorem uploadFinished_retires (fileId : Int) (result : UploadOutcome) :
    (∀ current, progressAfter fileId (uploadFinished fileId result) current = none) ∧
    publishedAfterRetirement fileId (uploadFinished fileId result) = false := by
  cases result <;>
    simp [uploadFinished, progressAfter, publishedAfterRetirement, Effect.isRetirementOf,
      Effect.isSampleFor]

theorem downloadFinished_retires (messageId : QString) (fileId : Int) (filePath : QString)
    (result : DownloadOutcome) :
    (∀ current,
      progressAfter fileId (downloadFinished messageId fileId filePath result) current = none) ∧
    publishedAfterRetirement fileId (downloadFinished messageId fileId filePath result)
      = false := by
  cases result <;>
    simp [downloadFinished, progressAfter, publishedAfterRetirement, Effect.isRetirementOf,
      Effect.isSampleFor]

/-- An upload through `sendFile`: a sample for the id is published before the completion is
handled, whatever the progress events, the entry is absent after the completion whatever
the outcome, and no sample follows the retirement. -/
theorem sendFile_progress_retired (fileId : Int) (bytesTotal : Nat)
    (readings : List TransferReading) (result : UploadOutcome) :
    (∃ before, sendFile fileId bytesTotal readings result
        = before ++ uploadFinished fileId result ∧
      before.any (Effect.isSampleFor fileId) = true) ∧
    (∀ current, progressAfter fileId (sendFile fileId bytesTotal readings result) current
      = none) ∧
    publishedAfterRetirement fileId (sendFile fileId bytesTotal readings result) = false := by
  refine ⟨⟨_, rfl, by simp [Effect.isSampleFor]⟩, ?_, ?_⟩
  · intro current
    unfold sendFile
    rw [progressAfter_append]
    exact (uploadFinished_retires fileId result).1 _
  · unfold sendFile
    rw [List.append_assoc]
    simp only [List.singleton_append, publishedAfterRetirement, Effect.isRetirementOf,
      Bool.false_and, Bool.false_or]
    show publishedAfterRetirement fileId
      (progressChanged fileId readings ++ uploadFinished fileId result) = false
    rw [publishedAfterRetirement_samples]
    exact (uploadFinished_retires fileId result).2

/-- A download through `downloadFile` that reached its task: the entry of the id is absent
after the completion whatever the outcome and no sample follows the retirement; a sample
is published before the completion when the provider emitted a progress event. -/
theorem downloadFile_progress_retired (fuel : Nat) (env : DownloadEnv)
    (canOpen : QString → Bool) (messageId : QString) (fileId : Int)
    (fileShare : QXmppFileShare) (readings : List TransferReading) (result : DownloadOutcome)
    (filePath : QString) (hpath : downloadFilePath fuel env fileShare = .ok filePath)
    (hopen : canOpen filePath = true) :
    ∃ effects,
      downloadFile fuel env canOpen messageId fileId fileShare readings result = .ok effects ∧
      effects = progressChanged fileId readings
        ++ downloadFinished messageId fileId filePath result ∧
      (readings ≠ [] → (progressChanged fileId readings).any (Effect.isSampleFor fileId)
        = true) ∧
      (∀ current, progressAfter fileId effects current = none) ∧
      publishedAfterRetirement fileId effects = false := by
  refine ⟨_, by simp [downloadFile, hpath, hopen], rfl, ?_, ?_, ?_⟩
  · intro hne
    cases readings with
    | nil => exact absurd rfl hne
    | cons r rest => simp [progressChanged, Effect.isSampleFor]
  · intro current
    rw [progressAfter_append]
    exact (downloadFinished_retires messageId fileId filePath result).1 _
  · rw [publishedAfterRetirement_samples]
    exact (downloadFinished_retires messageId fileId filePath result).2

/-- C15, at the failing input: a download whose task ends without a progress event.  The
file `photo.png` is downloaded into an empty managed directory; the effects of
`downloadFile` are the record update and the retirement of the progress entry, and no
sample for the id is published at any time, while `sendFile` publishes one right after
it has started the upload. -/
theorem downloadFile_publishes_no_sample :
    downloadFile 8
        ⟨.unix, fun _ => false, fun _ => [], "/home/user/Downloads".toList, "Kaidan".toList,
          "Fri Oct 30 09:11:00 2026".toList⟩
        (fun _ => true) "m1".toList 7
        ⟨⟨some "photo.png".toList, some ⟨"png".toList⟩, []⟩, [], []⟩ [] .downloaded
      = .ok [.updateMessage "m1".toList
               (.setLocalFilePath 7 "/home/user/Downloads/Kaidan//photo.png".toList),
             .reportProgress 7 none] ∧
    [Effect.updateMessage "m1".toList
        (.setLocalFilePath 7 "/home/user/Downloads/Kaidan//photo.png".toList),
      Effect.reportProgress 7 none].any (Effect.isSampleFor 7) = false ∧
    (sendFile 7 2048 [] (.fileResult ⟨⟨⟨none, none, []⟩, [], []⟩, []⟩)).head?
      = some (.reportProgress 7 (some ⟨0, 2048, 0⟩)) :=
  ⟨rfl, by decide, by decide⟩

/-! ## Claims on the name of the download and on the assertion of the handler -/

/-- With a declared media type the candidate path is defined: the directory, a separator,
the base name, a dot and the preferred suffix of the media type, where the base name is
the sanitized declared name when a name is declared and the sanitizer returns one, and
the date string otherwise. -/
theorem candidatePath_with_mediaType (env : DownloadEnv) (fileShare : QXmppFileShare)
    (mediaType : QMimeType) (h : fileShare.metadata.mediaType = some mediaType) :
    candidatePath env fileShare =
      .ok (downloadDirPath env.platform env.downloadLocation env.appName
            ++ [separator env.platform]
            ++ (match fileShare.metadata.filename with
                | none => env.dateString
                | some declared =>
                  match sanitizeFilename env.platform declared with
                  | none => env.dateString
                  | some name => name)
            ++ ['.'] ++ mediaType.preferredSuffix) := by
  unfold candidatePath
  rw [h]
  cases hf : fileShare.metadata.filename with
  | none => simp [andThen, makeFileName]
  | some declared =>
    cases hs : sanitizeFilename env.platform declared with
    | none => simp [andThen, makeFileName, hs]
    | some name => simp [andThen, makeFileName, hs]

/-- C16 as stated fails: for a shared file with the declared name `photo.png` and no
declared media type the name is sanitized to `photo`, and the extension is read through
the empty optional media type, so neither the candidate path nor the download is
defined. -/
theorem downloadFile_without_mediaType :
    andThen (some "photo.png".toList) (sanitizeFilename .unix) = some "photo".toList ∧
    candidatePath
        ⟨.unix, fun _ => false, fun _ => [], "/home/user/Downloads".toList, "Kaidan".toList,
          "Fri Oct 30 09:11:00 2026".toList⟩
        ⟨⟨some "photo.png".toList, none, []⟩, [], []⟩
      = .error .emptyOptionalDereference ∧
    downloadFile 8
        ⟨.unix, fun _ => false, fun _ => [], "/home/user/Downloads".toList, "Kaidan".toList,
          "Fri Oct 30 09:11:00 2026".toList⟩
        (fun _ => true) "m1".toList 7
        ⟨⟨some "photo.png".toList, none, []⟩, [], []⟩ [] .downloaded
      = .error .emptyOptionalDereference :=
  ⟨by decide, rfl, rfl⟩

/-- C16, amended: for every shared file whose metadata declares a media type, with or
without a declared name, the name of the download is defined.  The base name is the
sanitized declared name when a name is declared and the sanitizer returns one, and the
date string otherwise; the extension is the preferred suffix of the media type, and an
empty suffix is accepted: the path then ends in the dot.  The candidate path is the
managed directory, a separator, the base name, a dot and the extension, and it is the
path opened for writing when no file exists at it. -/
theorem candidatePath_defined (env : DownloadEnv) (fileShare : QXmppFileShare)
    (mediaType : QMimeType) (h : fileShare.metadata.mediaType = some mediaType) :
    candidatePath env fileShare =
      .ok (downloadDirPath env.platform env.downloadLocation env.appName
            ++ [separator env.platform]
            ++ (match fileShare.metadata.filename with
                | none => env.dateString
                | some declared =>
                  match sanitizeFilename env.platform declared with
                  | none => env.dateString
                  | some name => name)
            ++ ['.'] ++ mediaType.preferredSuffix) ∧
    (mediaType.preferredSuffix = [] →
      candidatePath env fileShare =
        .ok (downloadDirPath env.platform env.downloadLocation env.appName
              ++ [separator env.platform]
              ++ (match fileShare.metadata.filename with
                  | none => env.dateString
                  | some declared =>
                    match sanitizeFilename env.platform declared with
                    | none => env.dateString
                    | some name => name)
              ++ ['.'])) ∧
    (∀ (fuel : Nat) (filePath : QString), candidatePath env fileShare = .ok filePath →
      env.fileExists filePath = false →
      downloadFilePath fuel env fileShare = .ok filePath) := by
  have hbase : (andThen fileShare.metadata.filename (sanitizeFilename env.platform)).getD
        env.dateString
      = (match fileShare.metadata.filename with
          | none => env.dateString
          | some declared =>
            match sanitizeFilename env.platform declared with
            | none => env.dateString
            | some name => name) := by
    cases hf : fileShare.metadata.filename with
    | none => rfl
    | some declared =>
      cases hs : sanitizeFilename env.platform declared with
      | none => simp [andThen, hs]
      | some name => simp [andThen, hs]
  have hcand : candidatePath env fileShare =
      .ok (downloadDirPath env.platform env.downloadLocation env.appName
            ++ [separator env.platform]
            ++ (match fileShare.metadata.filename with
                | none => env.dateString
                | some declared =>
                  match sanitizeFilename env.platform declared with
                  | none => env.dateString
                  | some name => name)
            ++ ['.'] ++ mediaType.preferredSuffix) := by
    unfold candidatePath
    rw [h]
    simp only [makeFileName, hbase]
  refine ⟨hcand, ?_, ?_⟩
  · intro hempty
    rw [hcand, hempty, List.append_nil]
  · intro fuel filePath hpath hfree
    unfold candidatePath at hpath
    rw [h] at hpath
    simp only at hpath
    injection hpath with hpath
    unfold downloadFilePath
    rw [h]
    simp only [hpath, hfree, Bool.false_eq_true, if_false]

/-- Witness of C16, amended: the declared name `photo.png` with a media type whose
preferred suffix is empty. -/
theorem candidatePath_defined_witness :
    candidatePath
        ⟨.unix, fun _ => false, fun _ => [], "/home/user/Downloads".toList, "Kaidan".toList,
          "Fri Oct 30 09:11:00 2026".toList⟩
        ⟨⟨some "photo.png".toList, some ⟨[]⟩, []⟩, [], []⟩
      = .ok "/home/user/Downloads/Kaidan//photo.".toList :=
  (candidatePath_defined
    ⟨.unix, fun _ => false, fun _ => [], "/home/user/Downloads".toList, "Kaidan".toList,
      "Fri Oct 30 09:11:00 2026".toList⟩
    ⟨⟨some "photo.png".toList, some ⟨[]⟩, []⟩, [], []⟩ ⟨[]⟩ rfl).1

/-- C18, at the failing input: a batch of one upload that was cancelled.  The outcome holds
no file result, so the handler takes the failure branch; no outcome holds an error, so the
lookup of the error finds nothing and the assertion on it fails. -/
theorem completionHandler_cancelled_upload :
    uploadFailed [(1, UploadOutcome.cancelled)] = true ∧
    [((1 : Int), UploadOutcome.cancelled)].find? holdsError = none ∧
    completionHandler (fun n => 100 + n) 0
        ⟨"uuid-1".toList, 1000, .Pending, some 5,
          [⟨1, 5, "a.png".toList, "/tmp/a.png".toList, [], none, [], [], []⟩], none⟩
        [(1, .cancelled)]
      = .error .assertionFailed :=
  ⟨by decide, by decide, rfl⟩

end Kaidan
